import Mathlib

/-
Verification of the specialized-dispatch procedural macro (src/lib.rs).

Shallow embedding choices:
* Items parsed by syn library sub-parsers (Rust types via Type, expressions
  via Expr, generic parameters via GenericParam) are modeled as opaque atomic
  tokens, since those parsers are external library code, not code of this
  repository.  A parenthesized group is a single token holding its content,
  mirroring proc-macro token trees.
* A parse error carries its message together with the stream suffix that
  begins at the offending token, mirroring the span anchoring of syn errors.
* The syn behaviour of reporting tokens left unconsumed inside a
  parenthesized group, and tokens left after the top-level parse, as errors
  is modeled at the points where the code finishes with the relevant buffer.
-/

namespace SpecDispatch

/-- Opaque atom standing for one Rust type as parsed by the syn Type parser. -/
structure RType where
  name : String
deriving DecidableEq

/-- Opaque atom standing for one Rust expression as parsed by the syn Expr
parser.  The leadDefault flag records whether the first raw token of the
expression is the contextual keyword default (as in the call default()):
the raw-token lookahead of parse_punctuated_arms inspects that token
through the expression boundary, so the model must not erase it.  No Rust
expression can begin with the reserved keyword fn, so no flag is needed for
fn. -/
structure RExpr where
  code : String
  leadDefault : Bool
deriving DecidableEq

/-- Opaque atom standing for one syn GenericParam (type or lifetime parameter
with optional bounds). -/
structure RGenericParam where
  code : String
deriving DecidableEq

/-- FnArgName from lib.rs: either an identifier or an underscore. -/
inductive FnArgName where
  | ident (s : String)
  | underscore
deriving DecidableEq

/-- FnArg from lib.rs: function argument with name and type. -/
structure FnArg where
  name : FnArgName
  ty : RType
deriving DecidableEq

/-- DispatchArmExpr from lib.rs.  The default marker, an Option of the
default keyword token in the source, is modeled as a Bool. -/
structure DispatchArmExpr where
  default : Bool
  generic_params : Option (List RGenericParam)
  input_expr : FnArg
  extra_args : List FnArg
  body : RExpr
deriving DecidableEq

/-- SpecializedDispatchExpr from lib.rs: the whole parsed invocation. -/
structure SpecializedDispatchExpr where
  from_type : RType
  to_type : RType
  arms : List DispatchArmExpr
  input_expr : RExpr
  extra_args : List RExpr
deriving DecidableEq

/-- Input token model. -/
inductive Tok where
  | arrow
  | fatArrow
  | comma
  | colon
  | lt
  | gt
  | kwDefault
  | kwFn
  | underscore
  | identTok (s : String)
  | tyTok (t : RType)
  | exprTok (e : RExpr)
  | genTok (g : RGenericParam)
  | paren (content : List Tok)

/-- Parse error: message plus the stream suffix beginning at the offending token. -/
abbrev PErr := String × List Tok

/-- Result of one parse step: the value and the remaining tokens, or an error. -/
abbrev PRes (α : Type) := Except PErr (α × List Tok)

/-- Sequencing of fallible parse steps (the Rust question-mark operator). -/
def pBind {α β : Type} (x : PRes α) (f : α → List Tok → PRes β) : PRes β :=
  match x with
  | .error err => .error err
  | .ok (a, ts) => f a ts

/-- FnArgName parse: an identifier, else an underscore, else an error. -/
def parseFnArgName : List Tok → PRes FnArgName
  | Tok.identTok s :: r => .ok (FnArgName.ident s, r)
  | Tok.underscore :: r => .ok (FnArgName.underscore, r)
  | ts => .error ("expected identifier or underscore", ts)

/-- FnArg parse: name, colon, type. -/
def parseFnArg (ts : List Tok) : PRes FnArg :=
  pBind (parseFnArgName ts) fun nm ts1 =>
    match ts1 with
    | Tok.colon :: ts2 =>
      match ts2 with
      | Tok.tyTok t :: ts3 => .ok (⟨nm, t⟩, ts3)
      | ts2x => .error ("expected type", ts2x)
    | ts1x => .error ("expected colon", ts1x)

/-- Punctuated parse_separated_nonempty for FnArg.  The fuel argument only
bounds the recursion depth; it is never exhausted when at least one more than
the stream length is supplied, since every iteration consumes tokens. -/
def parseFnArgListF : Nat → List Tok → PRes (List FnArg)
  | 0, ts => .error ("internal fuel exhausted", ts)
  | Nat.succ n, ts =>
    pBind (parseFnArg ts) fun a ts1 =>
      match ts1 with
      | Tok.comma :: ts2 => pBind (parseFnArgListF n ts2) fun as r => .ok (a :: as, r)
      | ts1x => .ok ([a], ts1x)

def parseFnArgList (ts : List Tok) : PRes (List FnArg) :=
  parseFnArgListF (ts.length + 1) ts

/-- Punctuated parse_separated_nonempty for GenericParam atoms. -/
def parseGenList : List Tok → PRes (List RGenericParam)
  | Tok.genTok g :: Tok.comma :: rest =>
      pBind (parseGenList rest) fun gs r => .ok (g :: gs, r)
  | Tok.genTok g :: rest => .ok ([g], rest)
  | ts => .error ("expected generic parameter", ts)

/-- Parse of an optional default keyword. -/
def parseOptDefault : List Tok → Bool × List Tok
  | Tok.kwDefault :: r => (true, r)
  | ts => (false, ts)

def expectFn : List Tok → PRes Unit
  | Tok.kwFn :: r => .ok ((), r)
  | ts => .error ("expected fn", ts)

/-- Generic parameter clause, present only when the next token is lt. -/
def parseGenericsOpt : List Tok → PRes (Option (List RGenericParam))
  | Tok.lt :: ts1 =>
      pBind (parseGenList ts1) fun gs ts2 =>
        match ts2 with
        | Tok.gt :: ts3 => .ok (some gs, ts3)
        | ts2x => .error ("expected gt", ts2x)
  | ts => .ok (none, ts)

/-- Parenthesized argument group: the input binding, then optionally a comma
followed by a nonempty comma-separated list of extra arguments.  The group
content must be fully consumed; syn reports leftover group tokens as an error
when the overall parse finishes, and that failure is folded in here. -/
def parseParenArgs : List Tok → PRes (FnArg × List FnArg)
  | Tok.paren content :: r =>
      pBind (parseFnArg content) fun inp c1 =>
        match c1 with
        | [] => .ok ((inp, []), r)
        | Tok.comma :: c2 =>
            pBind (parseFnArgList c2) fun extras c3 =>
              match c3 with
              | [] => .ok ((inp, extras), r)
              | c3x => .error ("unexpected token in arguments", c3x)
        | c1x => .error ("unexpected token in arguments", c1x)
  | ts => .error ("expected parenthesized arguments", ts)

def parseExprAtom : List Tok → PRes RExpr
  | Tok.exprTok e :: r => .ok (e, r)
  | ts => .error ("expected expression", ts)

/-- DispatchArmExpr parse. -/
def parseArm (ts : List Tok) : PRes DispatchArmExpr :=
  match parseOptDefault ts with
  | (dflt, ts0) =>
    pBind (expectFn ts0) fun _ ts1 =>
    pBind (parseGenericsOpt ts1) fun gp ts2 =>
    pBind (parseParenArgs ts2) fun args ts3 =>
    match ts3 with
    | Tok.fatArrow :: ts4 =>
        pBind (parseExprAtom ts4) fun b ts5 =>
          .ok (⟨dflt, gp, args.1, args.2, b⟩, ts5)
    | ts3x => .error ("expected fat arrow", ts3x)

/-- The next raw token begins an arm for the peeks of parse_punctuated_arms:
it is the default keyword or the fn keyword.  An expression atom whose first
raw token is the contextual keyword default also satisfies the
default-keyword peek. -/
def startsArm : List Tok → Bool
  | Tok.kwDefault :: _ => true
  | Tok.kwFn :: _ => true
  | Tok.exprTok e :: _ => e.leadDefault
  | _ => false

/-- parse_punctuated_arms loop from lib.rs: an arm is parsed exactly when the
next token is default or fn, and the following comma is consumed only when the
token after it is again default or fn.  Fuel only bounds the recursion. -/
def parseArmsF : Nat → List Tok → PRes (List DispatchArmExpr)
  | 0, ts => .error ("internal fuel exhausted", ts)
  | Nat.succ n, ts =>
    if startsArm ts then
      pBind (parseArm ts) fun a ts1 =>
        match ts1 with
        | Tok.comma :: ts2 =>
            if startsArm ts2 then
              pBind (parseArmsF n ts2) fun as r => .ok (a :: as, r)
            else .ok ([a], Tok.comma :: ts2)
        | ts1x => .ok ([a], ts1x)
    else .ok ([], ts)

def parseArms (ts : List Tok) : PRes (List DispatchArmExpr) :=
  parseArmsF (ts.length + 1) ts

/-- Punctuated parse_terminated for expressions: runs until the input is
empty, requiring a comma between elements and tolerating a trailing comma. -/
def parseExprList : List Tok → PRes (List RExpr)
  | [] => .ok ([], [])
  | Tok.exprTok e :: Tok.comma :: rest =>
      pBind (parseExprList rest) fun es r => .ok (e :: es, r)
  | [Tok.exprTok e] => .ok ([e], [])
  | Tok.exprTok _ :: rest => .error ("expected comma", rest)
  | ts => .error ("expected expression", ts)

def expectComma : List Tok → PRes Unit
  | Tok.comma :: r => .ok ((), r)
  | ts => .error ("expected comma", ts)

def parseTy : List Tok → PRes RType
  | Tok.tyTok t :: r => .ok (t, r)
  | ts => .error ("expected type", ts)

def expectArrow : List Tok → PRes Unit
  | Tok.arrow :: r => .ok ((), r)
  | ts => .error ("expected arrow", ts)

/-- Optional comma: the parse of a comma token with the error discarded. -/
def skipOptComma : List Tok → List Tok
  | Tok.comma :: r => r
  | ts => ts

/-- SpecializedDispatchExpr parse from lib.rs lines 142 to 163. -/
def parseSDE (ts : List Tok) : PRes SpecializedDispatchExpr :=
  pBind (parseTy ts) fun fromTy tsA =>
  pBind (expectArrow tsA) fun _ tsB =>
  pBind (parseTy tsB) fun toTy tsC =>
  pBind (expectComma tsC) fun _ tsD =>
  pBind (parseArms tsD) fun arms tsE =>
  pBind (expectComma tsE) fun _ tsF =>
  pBind (parseExprAtom tsF) fun v tsG =>
  pBind (parseExprList (skipOptComma tsG)) fun es tsH =>
  .ok (⟨fromTy, toTy, arms, v, es⟩, tsH)

/-- parse_macro_input: the whole stream must be consumed. -/
def parseFull (ts : List Tok) : Except PErr SpecializedDispatchExpr :=
  match parseSDE ts with
  | .ok (e, []) => .ok e
  | .ok (_, t :: r) => .error ("unexpected token", t :: r)
  | .error err => .error err

/-- Output token model for the generated token stream. -/
inductive OTok where
  | kwTrait
  | kwImpl
  | kwFn
  | kwDefault
  | kwFor
  | kwAs
  | identO (s : String)
  | lt
  | gt
  | comma
  | colon
  | semi
  | arrow
  | pathSep
  | underscore
  | tyO (t : RType)
  | exprO (e : RExpr)
  | genO (g : RGenericParam)
  | parenO (content : List OTok)
  | braceO (content : List OTok)

/-- The helper trait name used by to_tokens; hygiene spans are not modeled. -/
def traitNameStr : String := "SpecializedDispatchCall"

/-- ToTokens for FnArgName. -/
def fnArgNameO : FnArgName → OTok
  | FnArgName.ident s => OTok.identO s
  | FnArgName.underscore => OTok.underscore

/-- ToTokens for FnArg: name, colon, type. -/
def fnArgO (a : FnArg) : List OTok :=
  [fnArgNameO a.name, OTok.colon, OTok.tyO a.ty]

/-- The quote repetition of comma-preceded extra arguments. -/
def commaFnArgsO : List FnArg → List OTok
  | [] => []
  | a :: as => OTok.comma :: fnArgO a ++ commaFnArgsO as

/-- ToTokens of a Punctuated generic-parameter list: separated by commas. -/
def punctGenO : List RGenericParam → List OTok
  | [] => []
  | [g] => [OTok.genO g]
  | g :: gs => OTok.genO g :: OTok.comma :: punctGenO gs

/-- generate_trait_declaration from lib.rs lines 166 to 177. -/
def generateTraitDeclaration (traitName : String) (extraArgs : List FnArg)
    (returnType : RType) : List OTok :=
  [OTok.kwTrait, OTok.identO traitName, OTok.lt, OTok.identO ("T"), OTok.gt,
   OTok.braceO
     [OTok.kwFn, OTok.identO ("dispatch"),
      OTok.parenO (OTok.underscore :: OTok.colon :: OTok.identO ("T") :: commaFnArgsO extraArgs),
      OTok.arrow, OTok.tyO returnType, OTok.semi]]

/-- generate_trait_implementation from lib.rs lines 181 to 201. -/
def generateTraitImplementation (dflt : Bool) (traitName : String)
    (genericParams : Option (List RGenericParam)) (inputExpr : FnArg)
    (extraArgs : List FnArg) (returnType : RType) (body : RExpr) : List OTok :=
  OTok.kwImpl ::
    ((match genericParams with
      | none => []
      | some gs => OTok.lt :: punctGenO gs ++ [OTok.gt]) ++
     [OTok.identO traitName, OTok.lt, OTok.tyO inputExpr.ty, OTok.gt,
      OTok.kwFor, OTok.tyO inputExpr.ty,
      OTok.braceO
        ((if dflt then [OTok.kwDefault] else []) ++
         OTok.kwFn :: OTok.identO ("dispatch") ::
         OTok.parenO (fnArgNameO inputExpr.name :: OTok.colon :: OTok.tyO inputExpr.ty ::
            commaFnArgsO extraArgs) ::
         [OTok.arrow, OTok.tyO returnType, OTok.braceO [OTok.exprO body]])])

def commaExprsO : List RExpr → List OTok
  | [] => []
  | e :: es => OTok.comma :: OTok.exprO e :: commaExprsO es

/-- generate_dispatch_call from lib.rs lines 204 to 213. -/
def generateDispatchCall (fromType : RType) (traitName : String)
    (inputExpr : RExpr) (extraArgs : List RExpr) : List OTok :=
  [OTok.lt, OTok.tyO fromType, OTok.kwAs, OTok.identO traitName, OTok.lt,
   OTok.tyO fromType, OTok.gt, OTok.gt, OTok.pathSep, OTok.identO ("dispatch"),
   OTok.parenO (OTok.exprO inputExpr :: commaExprsO extraArgs)]

/-- The extra-args accumulation of the to_tokens loop: every default arm
overwrites the accumulator, so the last default arm in source order wins. -/
def collectExtraArgs : List DispatchArmExpr → List FnArg → List FnArg
  | [], acc => acc
  | a :: as, acc => collectExtraArgs as (if a.default then a.extra_args else acc)

/-- The implementation concatenation of the to_tokens loop, in arm order. -/
def armImplsO (toType : RType) : List DispatchArmExpr → List OTok
  | [] => []
  | a :: as =>
      generateTraitImplementation a.default traitNameStr a.generic_params
          a.input_expr a.extra_args toType a.body
        ++ armImplsO toType as

/-- ToTokens for SpecializedDispatchExpr (lib.rs lines 215 to 253).  The
single source loop both collects the default-arm extra args and appends the
implementations; the two accumulations are independent, so the loop is
modeled as two traversals with identical result. -/
def sdeToTokens (e : SpecializedDispatchExpr) : List OTok :=
  [OTok.braceO
    (generateTraitDeclaration traitNameStr (collectExtraArgs e.arms []) e.to_type
      ++ armImplsO e.to_type e.arms
      ++ generateDispatchCall e.from_type traitNameStr e.input_expr e.extra_args)]

/-- The specialized_dispatch entry point: parse, then expand; a parse error
is the sole output and generation does not run. -/
def specializedDispatch (ts : List Tok) : Except PErr (List OTok) :=
  match parseFull ts with
  | .ok e => .ok (sdeToTokens e)
  | .error err => .error err

/-- Decoded form of the generated trait declaration. -/
structure DeclInfo where
  traitName : String
  typeParam : String
  methodName : String
  methodExtraParams : List FnArg
  returnType : RType
deriving DecidableEq

/-- Decoded form of one generated trait implementation. -/
structure ImplInfo where
  generics : Option (List RGenericParam)
  traitName : String
  traitTypeArg : RType
  selfType : RType
  isDefault : Bool
  methodName : String
  methodParams : List FnArg
  returnType : RType
  body : RExpr
deriving DecidableEq

/-- Decoded form of the generated dispatch call. -/
structure CallInfo where
  selfType : RType
  traitName : String
  traitTypeArg : RType
  methodName : String
  callArgs : List RExpr
deriving DecidableEq

def decodeFnArgName : OTok → Option FnArgName
  | OTok.identO s => some (FnArgName.ident s)
  | OTok.underscore => some FnArgName.underscore
  | _ => none

/-- Decode a comma-preceded parameter tail back into FnArgs. -/
def decodeCommaArgs : List OTok → Option (List FnArg)
  | [] => some []
  | OTok.comma :: n :: OTok.colon :: OTok.tyO t :: rest =>
      match decodeFnArgName n, decodeCommaArgs rest with
      | some nm, some as => some (⟨nm, t⟩ :: as)
      | _, _ => none
  | _ => none

/-- Decode the trait declaration at the front of the block content. -/
def decodeDecl : List OTok → Option (DeclInfo × List OTok)
  | OTok.kwTrait :: OTok.identO tn :: OTok.lt :: OTok.identO tp :: OTok.gt ::
      OTok.braceO [OTok.kwFn, OTok.identO mn,
        OTok.parenO (OTok.underscore :: OTok.colon :: OTok.identO tp2 :: ps),
        OTok.arrow, OTok.tyO rt, OTok.semi] :: rest =>
      if tp2 = tp then
        match decodeCommaArgs ps with
        | some as => some (⟨tn, tp, mn, as, rt⟩, rest)
        | none => none
      else none
  | _ => none

/-- Decode the tail of a generic-parameter list up to the closing gt. -/
def decodeGenTail : List OTok → Option (List RGenericParam × List OTok)
  | OTok.gt :: rest => some ([], rest)
  | OTok.genO g :: OTok.gt :: rest => some ([g], rest)
  | OTok.genO g :: OTok.comma :: rest =>
      match decodeGenTail rest with
      | some (gs, r) => some (g :: gs, r)
      | none => none
  | _ => none

def decodeGens : List OTok → Option (Option (List RGenericParam) × List OTok)
  | OTok.lt :: rest =>
      match decodeGenTail rest with
      | some (gs, r) => some (some gs, r)
      | none => none
  | rest => some (none, rest)

/-- Decode a method with signature and a single body expression. -/
def decodeMethodCore : List OTok → Option (String × List FnArg × RType × RExpr)
  | [OTok.kwFn, OTok.identO mn,
     OTok.parenO (n :: OTok.colon :: OTok.tyO t :: ps),
     OTok.arrow, OTok.tyO rt, OTok.braceO [OTok.exprO b]] =>
      match decodeFnArgName n, decodeCommaArgs ps with
      | some nm, some as => some (mn, ⟨nm, t⟩ :: as, rt, b)
      | _, _ => none
  | _ => none

def decodeMethod : List OTok → Option (Bool × String × List FnArg × RType × RExpr)
  | OTok.kwDefault :: rest =>
      match decodeMethodCore rest with
      | some (mn, ps, rt, b) => some (true, mn, ps, rt, b)
      | none => none
  | rest =>
      match decodeMethodCore rest with
      | some (mn, ps, rt, b) => some (false, mn, ps, rt, b)
      | none => none

/-- Decode one trait implementation at the front. -/
def decodeImpl : List OTok → Option (ImplInfo × List OTok)
  | OTok.kwImpl :: rest =>
      match decodeGens rest with
      | some (gp, OTok.identO tn :: OTok.lt :: OTok.tyO ta :: OTok.gt ::
          OTok.kwFor :: OTok.tyO st :: OTok.braceO mb :: rest2) =>
          match decodeMethod mb with
          | some (d, mn, ps, rt, b) => some (⟨gp, tn, ta, st, d, mn, ps, rt, b⟩, rest2)
          | none => none
      | _ => none
  | _ => none

def decodeImplsF : Nat → List OTok → Option (List ImplInfo × List OTok)
  | 0, _ => none
  | Nat.succ n, ts =>
      match ts with
      | OTok.kwImpl :: _ =>
          match decodeImpl ts with
          | some (i, r) =>
              match decodeImplsF n r with
              | some (is, r2) => some (i :: is, r2)
              | none => none
          | none => none
      | _ => some ([], ts)

def decodeImpls (ts : List OTok) : Option (List ImplInfo × List OTok) :=
  decodeImplsF (ts.length + 1) ts

def decodeCommaExprs : List OTok → Option (List RExpr)
  | [] => some []
  | OTok.comma :: OTok.exprO e :: rest =>
      match decodeCommaExprs rest with
      | some es => some (e :: es)
      | none => none
  | _ => none

/-- Decode the final dispatch call; it must end the block. -/
def decodeCallEnd : List OTok → Option CallInfo
  | [OTok.lt, OTok.tyO st, OTok.kwAs, OTok.identO tn, OTok.lt, OTok.tyO ta,
     OTok.gt, OTok.gt, OTok.pathSep, OTok.identO mn,
     OTok.parenO (OTok.exprO v :: argToks)] =>
      match decodeCommaExprs argToks with
      | some es => some ⟨st, tn, ta, mn, v :: es⟩
      | none => none
  | _ => none

/-- Decode the complete generator output: one brace block holding the trait
declaration, then the implementations, then the dispatch call, in order. -/
def decodeOutput : List OTok → Option (DeclInfo × List ImplInfo × CallInfo)
  | [OTok.braceO content] =>
      match decodeDecl content with
      | some (d, r1) =>
          match decodeImpls r1 with
          | some (is, r2) =>
              match decodeCallEnd r2 with
              | some c => some (d, is, c)
              | none => none
          | none => none
      | none => none
  | _ => none

/-- The implementation the generator is specified to emit for one arm:
implemented-for type and trait type argument are both the input-binding type,
generics exactly when declared, the default marker exactly when marked, the
method parameters are the binding names and the body is spliced verbatim. -/
def implInfoOfArm (toType : RType) (a : DispatchArmExpr) : ImplInfo :=
  ⟨a.generic_params, traitNameStr, a.input_expr.ty, a.input_expr.ty, a.default,
   "dispatch", a.input_expr :: a.extra_args, toType, a.body⟩

/-- Extra parameters of the last default arm in source order, or none. -/
def lastDefaultExtras (arms : List DispatchArmExpr) : List FnArg :=
  match (arms.filter fun a => a.default).getLast? with
  | some a => a.extra_args
  | none => []

/-- The trait declaration the generator is specified to emit. -/
def declInfoOf (e : SpecializedDispatchExpr) : DeclInfo :=
  ⟨traitNameStr, "T", "dispatch", lastDefaultExtras e.arms, e.to_type⟩

/-- The dispatch call the generator is specified to emit: the source type as
both self type and trait type argument, then the value and extras in order. -/
def callInfoOf (e : SpecializedDispatchExpr) : CallInfo :=
  ⟨e.from_type, traitNameStr, e.from_type, "dispatch", e.input_expr :: e.extra_args⟩

/-- Token printed for a FnArgName in the input grammar. -/
def fnArgNameTok : FnArgName → Tok
  | FnArgName.ident s => Tok.identTok s
  | FnArgName.underscore => Tok.underscore

/-- Input token segment of one InputBinding or ExtraParam. -/
def fnArgSeg (a : FnArg) : List Tok :=
  [fnArgNameTok a.name, Tok.colon, Tok.tyTok a.ty]

/-- Input token segment of a comma-preceded extra-parameter list. -/
def commaFnArgsSeg : List FnArg → List Tok
  | [] => []
  | a :: as => Tok.comma :: fnArgSeg a ++ commaFnArgsSeg as

/-- Input token segment of a nonempty comma-separated FnArg list. -/
def sepFnArgsSeg : List FnArg → List Tok
  | [] => []
  | a :: as => fnArgSeg a ++ commaFnArgsSeg as

/-- Input token segment of a comma-separated generic-parameter list. -/
def genSepSeg : List RGenericParam → List Tok
  | [] => []
  | [g] => [Tok.genTok g]
  | g :: gs => Tok.genTok g :: Tok.comma :: genSepSeg gs

/-- Input token segment of one arm after the optional default keyword. -/
def armSegTail (a : DispatchArmExpr) : List Tok :=
  Tok.kwFn ::
  ((match a.generic_params with
    | none => []
    | some gs => Tok.lt :: genSepSeg gs ++ [Tok.gt]) ++
   [Tok.paren (fnArgSeg a.input_expr ++ commaFnArgsSeg a.extra_args),
    Tok.fatArrow, Tok.exprTok a.body])

/-- Input token segment of one arm, following the grammar
default? fn generics? ( binding (, extra)* ) fatArrow body. -/
def armSeg (a : DispatchArmExpr) : List Tok :=
  (if a.default then [Tok.kwDefault] else []) ++ armSegTail a

/-- Input token segment of an arm list: arms separated by single commas. -/
def armsSeg : List DispatchArmExpr → List Tok
  | [] => []
  | [a] => armSeg a
  | a :: as => armSeg a ++ Tok.comma :: armsSeg as

/-- Well-formedness of an arm as written in the grammar: a declared
generic-parameter clause holds at least one parameter. -/
def ArmWF (a : DispatchArmExpr) : Prop := a.generic_params ≠ some []

/-- The language of a comma-terminated expression list: elements separated
by commas, optional trailing comma, possibly empty. -/
inductive ExprTermList : List Tok → List RExpr → Prop
  | nil : ExprTermList [] []
  | single (e : RExpr) : ExprTermList [Tok.exprTok e] [e]
  | cons (e : RExpr) (ts : List Tok) (es : List RExpr) :
      ExprTermList ts es → ExprTermList (Tok.exprTok e :: Tok.comma :: ts) (e :: es)

/-- Modelled from the spec grammar: the extras part as the claim states it,
each extra argument preceded by a comma, with an optional trailing comma. -/
inductive ExtrasClaimed : List Tok → List RExpr → Prop
  | nil : ExtrasClaimed [] []
  | afterComma (ts : List Tok) (es : List RExpr) :
      ExprTermList ts es → ExtrasClaimed (Tok.comma :: ts) es

/-- The extras part as the code accepts it: an optional leading comma, then a
comma-terminated expression list (the separating comma before the first extra
argument may be omitted). -/
def ExtrasCode (ts : List Tok) (es : List RExpr) : Prop :=
  ExprTermList ts es ∨ ∃ ts2, ts = Tok.comma :: ts2 ∧ ExprTermList ts2 es

/-- Type-pair-first stream shape, parameterized by the extras-part shape:
source type, arrow, destination type, comma, arm list, comma, value
expression, extras part; the fields of the expression record the pieces. -/
def TopShapeWith (X : List Tok → List RExpr → Prop)
    (ts : List Tok) (e : SpecializedDispatchExpr) : Prop :=
  (∀ a ∈ e.arms, ArmWF a) ∧
  ∃ xseg, X xseg e.extra_args ∧
    ts = Tok.tyTok e.from_type :: Tok.arrow :: Tok.tyTok e.to_type :: Tok.comma ::
      (armsSeg e.arms ++ Tok.comma :: Tok.exprTok e.input_expr :: xseg)

/-- Concrete stream for the C1 counterexample: A arrow B, comma, comma,
value v, then an extra argument w with no comma in between. -/
def cexTs : List Tok :=
  [Tok.tyTok ⟨"A"⟩, Tok.arrow, Tok.tyTok ⟨"B"⟩, Tok.comma, Tok.comma,
   Tok.exprTok ⟨"v", false⟩, Tok.exprTok ⟨"w", false⟩]

/-- The expression the parser produces for cexTs. -/
def cexE : SpecializedDispatchExpr :=
  ⟨⟨"A"⟩, ⟨"B"⟩, [], ⟨"v", false⟩, [⟨"w", false⟩]⟩

/-- A concrete arm: fn (v: u8) => b. -/
def exArm : DispatchArmExpr :=
  ⟨false, none, ⟨FnArgName.ident ("v"), ⟨"u8"⟩⟩, [], ⟨"b", false⟩⟩

/-- A concrete default arm with generics and one extra parameter. -/
def exDefArm : DispatchArmExpr :=
  ⟨true, some [⟨"T"⟩], ⟨FnArgName.underscore, ⟨"T"⟩⟩, [⟨FnArgName.ident ("x"), ⟨"u8"⟩⟩],
   ⟨"d", false⟩⟩

/-- A second default arm with different extra parameters. -/
def exDefArm2 : DispatchArmExpr :=
  ⟨true, none, ⟨FnArgName.ident ("w"), ⟨"u16"⟩⟩, [], ⟨"d2", false⟩⟩

/-- Expression with one default arm first and one concrete arm. -/
def exE1 : SpecializedDispatchExpr :=
  ⟨⟨"E"⟩, ⟨"S"⟩, [exDefArm, exArm], ⟨"v0", false⟩, [⟨"a0", false⟩]⟩

/-- The same expression with the two arms swapped. -/
def exE2 : SpecializedDispatchExpr :=
  ⟨⟨"E"⟩, ⟨"S"⟩, [exArm, exDefArm], ⟨"v0", false⟩, [⟨"a0", false⟩]⟩

/-- Expression with no default arm and two identical concrete arms. -/
def exENoDefault : SpecializedDispatchExpr :=
  ⟨⟨"E"⟩, ⟨"S"⟩, [exArm, exArm], ⟨"v0", false⟩, []⟩

/-- Expression with two default arms. -/
def exETwoDefaults : SpecializedDispatchExpr :=
  ⟨⟨"E"⟩, ⟨"S"⟩, [exDefArm, exDefArm2], ⟨"v0", false⟩, []⟩

/-- Token stream whose parse is exENoDefault. -/
def exTsNoDefault : List Tok :=
  Tok.tyTok ⟨"E"⟩ :: Tok.arrow :: Tok.tyTok ⟨"S"⟩ :: Tok.comma ::
    (armsSeg [exArm, exArm] ++ [Tok.comma, Tok.exprTok ⟨"v0", false⟩])

end SpecDispatch
namespace SpecDispatch

theorem pBind_ok_iff {α β : Type} (x : PRes α) (f : α → List Tok → PRes β)
    (b : β) (r : List Tok) :
    pBind x f = .ok (b, r) ↔ ∃ a m, x = .ok (a, m) ∧ f a m = .ok (b, r) := by
  cases x with
  | error err => simp [pBind]
  | ok p =>
    cases p with
    | mk a m =>
      constructor
      · intro h
        exact ⟨a, m, rfl, h⟩
      · rintro ⟨a1, m1, h1, h2⟩
        simp only [pBind]
        obtain ⟨ha, hm⟩ := Prod.mk.injEq .. ▸ (Except.ok.inj h1)
        subst ha; subst hm
        exact h2

theorem parseFnArgName_sound (ts : List Tok) (n : FnArgName) (r : List Tok)
    (h : parseFnArgName ts = .ok (n, r)) : ts = fnArgNameTok n :: r := by
  cases ts with
  | nil => simp [parseFnArgName] at h
  | cons t rest => cases t <;> cases n <;> simp_all [parseFnArgName, fnArgNameTok]

theorem parseFnArgName_complete (n : FnArgName) (r : List Tok) :
    parseFnArgName (fnArgNameTok n :: r) = .ok (n, r) := by
  cases n <;> rfl

theorem parseTy_sound (ts : List Tok) (t : RType) (r : List Tok)
    (h : parseTy ts = .ok (t, r)) : ts = Tok.tyTok t :: r := by
  cases ts with
  | nil => simp [parseTy] at h
  | cons x rest => cases x <;> simp_all [parseTy]

theorem expectArrow_sound (ts : List Tok) (u : Unit) (r : List Tok)
    (h : expectArrow ts = .ok (u, r)) : ts = Tok.arrow :: r := by
  cases ts with
  | nil => simp [expectArrow] at h
  | cons x rest => cases x <;> simp_all [expectArrow]

theorem expectComma_sound (ts : List Tok) (u : Unit) (r : List Tok)
    (h : expectComma ts = .ok (u, r)) : ts = Tok.comma :: r := by
  cases ts with
  | nil => simp [expectComma] at h
  | cons x rest => cases x <;> simp_all [expectComma]

theorem expectFn_sound (ts : List Tok) (u : Unit) (r : List Tok)
    (h : expectFn ts = .ok (u, r)) : ts = Tok.kwFn :: r := by
  cases ts with
  | nil => simp [expectFn] at h
  | cons x rest => cases x <;> simp_all [expectFn]

theorem parseExprAtom_sound (ts : List Tok) (e : RExpr) (r : List Tok)
    (h : parseExprAtom ts = .ok (e, r)) : ts = Tok.exprTok e :: r := by
  cases ts with
  | nil => simp [parseExprAtom] at h
  | cons x rest => cases x <;> simp_all [parseExprAtom]

theorem parseFnArg_sound (ts : List Tok) (a : FnArg) (r : List Tok)
    (h : parseFnArg ts = .ok (a, r)) : ts = fnArgSeg a ++ r := by
  rw [parseFnArg, pBind_ok_iff] at h
  obtain ⟨nm, m, h1, h2⟩ := h
  have hts := parseFnArgName_sound ts nm m h1
  subst hts
  cases m with
  | nil => simp at h2
  | cons c m2 =>
    cases c <;> simp at h2
    cases m2 with
    | nil => simp at h2
    | cons d m3 =>
      cases d <;> simp at h2
      obtain ⟨h3, h4⟩ := h2
      subst h3
      subst h4
      rfl

theorem parseFnArg_complete (a : FnArg) (r : List Tok) :
    parseFnArg (fnArgSeg a ++ r) = .ok (a, r) := by
  cases a with
  | mk n t => cases n <;> rfl

end SpecDispatch
namespace SpecDispatch

theorem commaFnArgsSeg_cons_eq (a : FnArg) (as : List FnArg) :
    commaFnArgsSeg (a :: as) = Tok.comma :: sepFnArgsSeg (a :: as) := rfl

theorem commaFnArgsSeg_len (as : List FnArg) : as.length ≤ (commaFnArgsSeg as).length := by
  induction as with
  | nil => simp [commaFnArgsSeg]
  | cons a as ih => simp [commaFnArgsSeg, fnArgSeg]; omega

theorem sepFnArgsSeg_len (as : List FnArg) : as.length ≤ (sepFnArgsSeg as).length := by
  cases as with
  | nil => simp [sepFnArgsSeg]
  | cons a as =>
    have := commaFnArgsSeg_len as
    simp [sepFnArgsSeg, fnArgSeg]
    omega

theorem parseFnArgListF_sound : ∀ (fuel : Nat) (ts : List Tok) (as : List FnArg) (r : List Tok),
    parseFnArgListF fuel ts = .ok (as, r) → as ≠ [] ∧ ts = sepFnArgsSeg as ++ r := by
  intro fuel
  induction fuel with
  | zero => intro ts as r h; simp [parseFnArgListF] at h
  | succ n ih =>
    intro ts as r h
    rw [parseFnArgListF, pBind_ok_iff] at h
    obtain ⟨a, ts1, h1, h2⟩ := h
    have hts := parseFnArg_sound ts a ts1 h1
    subst hts
    cases ts1 with
    | nil =>
      simp at h2
      obtain ⟨h3, h4⟩ := h2
      subst h3; subst h4
      exact ⟨by simp, by simp [sepFnArgsSeg, commaFnArgsSeg]⟩
    | cons c ts2 =>
      cases c
      case comma =>
        have h2b : pBind (parseFnArgListF n ts2)
            (fun as r => (Except.ok (a :: as, r) : PRes (List FnArg))) = .ok (as, r) := h2
        rw [pBind_ok_iff] at h2b
        obtain ⟨as2, r2, h5, h6⟩ := h2b
        obtain ⟨h7, h8⟩ := Prod.mk.injEq .. ▸ (Except.ok.inj h6)
        subst h7; subst h8
        obtain ⟨hne, hts2⟩ := ih ts2 as2 r2 h5
        subst hts2
        cases as2 with
        | nil => exact absurd rfl hne
        | cons b bs =>
          refine ⟨by simp, ?_⟩
          simp [sepFnArgsSeg, commaFnArgsSeg]
      all_goals
        (simp at h2
         obtain ⟨h3, h4⟩ := h2
         subst h3
         subst h4
         exact ⟨by simp, by simp [sepFnArgsSeg, commaFnArgsSeg]⟩)

theorem parseFnArgListF_complete : ∀ (as : List FnArg) (fuel : Nat) (r : List Tok),
    as ≠ [] → as.length ≤ fuel → (∀ r2, r ≠ Tok.comma :: r2) →
    parseFnArgListF fuel (sepFnArgsSeg as ++ r) = .ok (as, r) := by
  intro as
  induction as with
  | nil => intro fuel r h _ _; exact absurd rfl h
  | cons a as2 ih =>
    intro fuel r _ hlen hr
    cases fuel with
    | zero => simp at hlen
    | succ n =>
      have hstep : sepFnArgsSeg (a :: as2) ++ r = fnArgSeg a ++ (commaFnArgsSeg as2 ++ r) := by
        simp [sepFnArgsSeg]
      rw [hstep]
      rw [parseFnArgListF, parseFnArg_complete]
      simp only [pBind]
      cases as2 with
      | nil =>
        simp only [commaFnArgsSeg, List.nil_append]
      | cons b bs =>
        have h2 : commaFnArgsSeg (b :: bs) ++ r = Tok.comma :: (sepFnArgsSeg (b :: bs) ++ r) := by
          simp [commaFnArgsSeg, sepFnArgsSeg]
        rw [h2]
        have h3 := ih n r (by simp) (by simp at hlen ⊢; omega) hr
        show pBind (parseFnArgListF n (sepFnArgsSeg (b :: bs) ++ r)) _ = _
        rw [h3]
        rfl

theorem parseFnArgList_sound (ts : List Tok) (as : List FnArg) (r : List Tok)
    (h : parseFnArgList ts = .ok (as, r)) : as ≠ [] ∧ ts = sepFnArgsSeg as ++ r :=
  parseFnArgListF_sound (ts.length + 1) ts as r h

theorem parseFnArgList_complete (as : List FnArg) (hne : as ≠ []) :
    parseFnArgList (sepFnArgsSeg as) = .ok (as, []) := by
  rw [parseFnArgList]
  have h := parseFnArgListF_complete as ((sepFnArgsSeg as).length + 1) [] hne
    (by have := sepFnArgsSeg_len as; omega) (fun r2 h => by simp at h)
  rw [List.append_nil] at h
  exact h

end SpecDispatch
namespace SpecDispatch

theorem parseGenList_soundAux : ∀ (n : Nat) (ts : List Tok), ts.length ≤ n →
    ∀ (gs : List RGenericParam) (r : List Tok),
    parseGenList ts = .ok (gs, r) → gs ≠ [] ∧ ts = genSepSeg gs ++ r := by
  intro n
  induction n with
  | zero =>
    intro ts hlen gs r h
    rw [List.length_eq_zero.mp (Nat.le_zero.mp hlen)] at h
    simp [parseGenList] at h
  | succ n ih =>
    intro ts hlen gs r h
    cases ts with
    | nil => simp [parseGenList] at h
    | cons t ts1 =>
      cases t <;> try (simp [parseGenList] at h)
      case genTok g =>
        cases ts1 with
        | nil =>
          simp [parseGenList] at h
          obtain ⟨h1, h2⟩ := h
          subst h1; subst h2
          exact ⟨by simp, by simp [genSepSeg]⟩
        | cons t2 ts2 =>
          cases t2
          case comma =>
            have h2 : pBind (parseGenList ts2)
                (fun gs r => (Except.ok (g :: gs, r) : PRes (List RGenericParam))) = .ok (gs, r) := h
            rw [pBind_ok_iff] at h2
            obtain ⟨gs2, r2, h3, h4⟩ := h2
            obtain ⟨h5, h6⟩ := Prod.mk.injEq .. ▸ (Except.ok.inj h4)
            subst h5; subst h6
            have hlen2 : ts2.length ≤ n := by simp at hlen; omega
            obtain ⟨hne, hts2⟩ := ih ts2 hlen2 gs2 r2 h3
            subst hts2
            cases gs2 with
            | nil => exact absurd rfl hne
            | cons x xs =>
              refine ⟨by simp, ?_⟩
              simp [genSepSeg]
          all_goals
            (have h2 : (Except.ok ([g], _) : PRes (List RGenericParam)) = .ok (gs, r) := h
             obtain ⟨h3, h4⟩ := Prod.mk.injEq .. ▸ (Except.ok.inj h2)
             subst h3
             subst h4
             exact ⟨by simp, by simp [genSepSeg]⟩)

theorem parseGenList_sound (ts : List Tok) (gs : List RGenericParam) (r : List Tok)
    (h : parseGenList ts = .ok (gs, r)) : gs ≠ [] ∧ ts = genSepSeg gs ++ r :=
  parseGenList_soundAux ts.length ts le_rfl gs r h

theorem parseGenList_complete : ∀ (gs : List RGenericParam) (r : List Tok),
    gs ≠ [] → (∀ x, r ≠ Tok.comma :: x) →
    parseGenList (genSepSeg gs ++ r) = .ok (gs, r) := by
  intro gs
  induction gs with
  | nil => intro r h _; exact absurd rfl h
  | cons g gs2 ih =>
    intro r _ hr
    cases gs2 with
    | nil =>
      simp only [genSepSeg, List.cons_append, List.nil_append]
      cases r with
      | nil => rfl
      | cons c r2 =>
        cases c
        case comma => exact absurd rfl (hr r2)
        all_goals rfl
    | cons x xs =>
      have hseg : genSepSeg (g :: x :: xs) ++ r =
          Tok.genTok g :: Tok.comma :: (genSepSeg (x :: xs) ++ r) := by
        simp [genSepSeg]
      rw [hseg]
      show pBind (parseGenList (genSepSeg (x :: xs) ++ r)) _ = _
      rw [ih r (by simp) hr]
      rfl

theorem parseGenericsOpt_sound (ts : List Tok) (gp : Option (List RGenericParam)) (r : List Tok)
    (h : parseGenericsOpt ts = .ok (gp, r)) :
    (gp = none ∧ r = ts ∧ ∀ x, ts ≠ Tok.lt :: x) ∨
    (∃ gs, gp = some gs ∧ gs ≠ [] ∧ ts = Tok.lt :: (genSepSeg gs ++ Tok.gt :: r)) := by
  cases ts with
  | nil =>
    left
    have h2 := Prod.mk.injEq .. ▸ (Except.ok.inj h)
    exact ⟨h2.1.symm, h2.2.symm, fun x hx => by simp at hx⟩
  | cons t ts1 =>
    cases t
    case lt =>
      right
      have h2 : pBind (parseGenList ts1) (fun gs ts2 =>
          match ts2 with
          | Tok.gt :: ts3 => (Except.ok (some gs, ts3) : PRes (Option (List RGenericParam)))
          | ts2x => .error ("expected gt", ts2x)) = .ok (gp, r) := h
      rw [pBind_ok_iff] at h2
      obtain ⟨gs, m, h3, h4⟩ := h2
      obtain ⟨hne, hm⟩ := parseGenList_sound ts1 gs m h3
      subst hm
      cases m with
      | nil => simp at h4
      | cons t2 ts3 =>
        cases t2 <;> simp at h4
        obtain ⟨h5, h6⟩ := h4
        subst h5; subst h6
        exact ⟨gs, rfl, hne, rfl⟩
    all_goals
      (left
       have h2 := Prod.mk.injEq .. ▸ (Except.ok.inj h)
       exact ⟨h2.1.symm, h2.2.symm, fun x hx => by simp at hx⟩)

theorem parseGenericsOpt_complete_none (ts : List Tok) (hts : ∀ x, ts ≠ Tok.lt :: x) :
    parseGenericsOpt ts = .ok (none, ts) := by
  cases ts with
  | nil => rfl
  | cons t ts1 =>
    cases t
    case lt => exact absurd rfl (hts ts1)
    all_goals rfl

theorem parseGenericsOpt_complete_some (gs : List RGenericParam) (r : List Tok) (hne : gs ≠ []) :
    parseGenericsOpt (Tok.lt :: (genSepSeg gs ++ Tok.gt :: r)) = .ok (some gs, r) := by
  show pBind (parseGenList (genSepSeg gs ++ Tok.gt :: r)) _ = _
  rw [parseGenList_complete gs (Tok.gt :: r) hne (fun x hx => by simp at hx)]
  rfl

theorem parseParenArgs_sound (ts : List Tok) (inp : FnArg) (extras : List FnArg) (r : List Tok)
    (h : parseParenArgs ts = .ok ((inp, extras), r)) :
    ts = Tok.paren (fnArgSeg inp ++ commaFnArgsSeg extras) :: r := by
  cases ts with
  | nil => simp [parseParenArgs] at h
  | cons t ts1 =>
    cases t <;> try (simp [parseParenArgs] at h)
    case paren content =>
      have h2 : pBind (parseFnArg content) (fun inp2 c1 =>
          match c1 with
          | [] => (Except.ok ((inp2, []), ts1) : PRes (FnArg × List FnArg))
          | Tok.comma :: c2 =>
              pBind (parseFnArgList c2) fun extras2 c3 =>
                match c3 with
                | [] => .ok ((inp2, extras2), ts1)
                | c3x => .error ("unexpected token in arguments", c3x)
          | c1x => .error ("unexpected token in arguments", c1x)) = .ok ((inp, extras), r) := h
      rw [pBind_ok_iff] at h2
      obtain ⟨inp2, c1, h3, h4⟩ := h2
      have hcontent := parseFnArg_sound content inp2 c1 h3
      subst hcontent
      cases c1 with
      | nil =>
        simp at h4
        obtain ⟨⟨ha, hb⟩, hc⟩ := h4
        subst ha; subst hb; subst hc
        simp [commaFnArgsSeg]
      | cons c c2 =>
        cases c <;> simp at h4
        case comma =>
          rw [pBind_ok_iff] at h4
          obtain ⟨extras2, c3, h5, h6⟩ := h4
          obtain ⟨hne, hc2⟩ := parseFnArgList_sound c2 extras2 c3 h5
          subst hc2
          cases c3 with
          | nil =>
            obtain ⟨hpair, hrest⟩ := Prod.mk.injEq .. ▸ (Except.ok.inj h6)
            obtain ⟨hinp, hextras⟩ := Prod.mk.injEq .. ▸ hpair
            subst hinp; subst hextras; subst hrest
            cases extras2 with
            | nil => exact absurd rfl hne
            | cons b bs => simp [commaFnArgsSeg_cons_eq]
          | cons d c4 => simp at h6

theorem parseParenArgs_complete (inp : FnArg) (extras : List FnArg) (r : List Tok) :
    parseParenArgs (Tok.paren (fnArgSeg inp ++ commaFnArgsSeg extras) :: r) =
      .ok ((inp, extras), r) := by
  show pBind (parseFnArg (fnArgSeg inp ++ commaFnArgsSeg extras)) _ = _
  rw [parseFnArg_complete]
  cases extras with
  | nil => rfl
  | cons b bs =>
    rw [commaFnArgsSeg_cons_eq]
    show pBind (parseFnArgList (sepFnArgsSeg (b :: bs))) _ = _
    rw [parseFnArgList_complete (b :: bs) (by simp)]
    rfl

end SpecDispatch
namespace SpecDispatch

theorem parseOptDefault_sound (ts : List Tok) (d : Bool) (r : List Tok)
    (h : parseOptDefault ts = (d, r)) :
    (d = true ∧ ts = Tok.kwDefault :: r) ∨
    (d = false ∧ r = ts ∧ ∀ x, ts ≠ Tok.kwDefault :: x) := by
  cases ts with
  | nil =>
    right
    have hpair : ((false, []) : Bool × List Tok) = (d, r) := h
    obtain ⟨h1, h2⟩ := Prod.mk.injEq .. ▸ hpair
    exact ⟨h1.symm, h2.symm, fun x hx => by simp at hx⟩
  | cons t ts1 =>
    cases t
    case kwDefault =>
      left
      have hpair : ((true, ts1) : Bool × List Tok) = (d, r) := h
      obtain ⟨h1, h2⟩ := Prod.mk.injEq .. ▸ hpair
      subst h2
      exact ⟨h1.symm, rfl⟩
    all_goals
      (right
       have hpair := h
       obtain ⟨h1, h2⟩ := Prod.mk.injEq .. ▸ hpair
       exact ⟨h1.symm, h2.symm, fun x hx => by simp at hx⟩)

theorem parseArmCore_sound (d : Bool) (ts0 : List Tok) (a : DispatchArmExpr) (r : List Tok)
    (h : pBind (expectFn ts0) (fun _ ts1 =>
      pBind (parseGenericsOpt ts1) fun gp ts2 =>
      pBind (parseParenArgs ts2) fun args ts3 =>
      match ts3 with
      | Tok.fatArrow :: ts4 =>
          pBind (parseExprAtom ts4) fun b ts5 =>
            (Except.ok (⟨d, gp, args.1, args.2, b⟩, ts5) : PRes DispatchArmExpr)
      | ts3x => .error ("expected fat arrow", ts3x)) = .ok (a, r)) :
    a.default = d ∧ ArmWF a ∧ ts0 = armSegTail a ++ r := by
  rw [pBind_ok_iff] at h
  obtain ⟨u, ts1, hfn, h2⟩ := h
  have hts0 := expectFn_sound ts0 u ts1 hfn
  subst hts0
  rw [pBind_ok_iff] at h2
  obtain ⟨gp, ts2, hgen, h3⟩ := h2
  rw [pBind_ok_iff] at h3
  obtain ⟨args, ts3, hpar, h4⟩ := h3
  obtain ⟨inp, extras⟩ := args
  have hts2 := parseParenArgs_sound ts2 inp extras ts3 hpar
  subst hts2
  cases ts3 with
  | nil => simp at h4
  | cons c ts4 =>
    cases c <;> simp at h4
    case fatArrow =>
      rw [pBind_ok_iff] at h4
      obtain ⟨b, ts5, hexp, h5⟩ := h4
      have hts4 := parseExprAtom_sound ts4 b ts5 hexp
      subst hts4
      obtain ⟨hpr, hrest⟩ := Prod.mk.injEq .. ▸ (Except.ok.inj h5)
      subst hrest
      subst hpr
      rcases parseGenericsOpt_sound ts1 gp _ hgen with ⟨hnone, hts1, _⟩ | ⟨gs, hsome, hne, hts1⟩
      · subst hnone
        subst hts1
        refine ⟨rfl, by simp [ArmWF], ?_⟩
        simp [armSegTail]
      · subst hsome
        subst hts1
        refine ⟨rfl, ?_, ?_⟩
        · simp only [ArmWF]
          intro hx
          rw [Option.some.injEq] at hx
          exact hne hx
        · simp [armSegTail]

theorem parseArm_sound (ts : List Tok) (a : DispatchArmExpr) (r : List Tok)
    (h : parseArm ts = .ok (a, r)) : ts = armSeg a ++ r ∧ ArmWF a := by
  cases hpd : parseOptDefault ts with
  | mk d ts0 =>
    rw [parseArm, hpd] at h
    obtain ⟨hd, hwf, hts0⟩ := parseArmCore_sound d ts0 a r h
    rcases parseOptDefault_sound ts d ts0 hpd with ⟨hdt, hts⟩ | ⟨hdf, hrts, _⟩
    · subst hts
      have hadt : a.default = true := hdt ▸ hd
      refine ⟨?_, hwf⟩
      rw [armSeg, hadt, hts0]
      simp
    · subst hrts
      have hadf : a.default = false := hdf ▸ hd
      refine ⟨?_, hwf⟩
      rw [armSeg, hadf, hts0]
      simp

theorem parseArm_complete (a : DispatchArmExpr) (r : List Tok) (hwf : ArmWF a) :
    parseArm (armSeg a ++ r) = .ok (a, r) := by
  obtain ⟨d, gp, inp, extras, b⟩ := a
  have hwf2 : gp ≠ some [] := hwf
  cases d
  case false =>
    cases gp with
    | none =>
      show pBind (parseParenArgs (Tok.paren (fnArgSeg inp ++ commaFnArgsSeg extras) ::
        Tok.fatArrow :: Tok.exprTok b :: r)) _ = _
      rw [parseParenArgs_complete]
      rfl
    | some gs =>
      have hgs : gs ≠ [] := fun hx => hwf2 (by rw [hx])
      have hseg : armSeg ⟨false, some gs, inp, extras, b⟩ ++ r =
          Tok.kwFn :: Tok.lt :: (genSepSeg gs ++ Tok.gt ::
            (Tok.paren (fnArgSeg inp ++ commaFnArgsSeg extras) ::
             Tok.fatArrow :: Tok.exprTok b :: r)) := by
        simp [armSeg, armSegTail]
      rw [hseg]
      show pBind (parseGenericsOpt (Tok.lt :: (genSepSeg gs ++ Tok.gt ::
        (Tok.paren (fnArgSeg inp ++ commaFnArgsSeg extras) ::
         Tok.fatArrow :: Tok.exprTok b :: r)))) _ = _
      rw [parseGenericsOpt_complete_some gs _ hgs]
      show pBind (parseParenArgs (Tok.paren (fnArgSeg inp ++ commaFnArgsSeg extras) ::
        Tok.fatArrow :: Tok.exprTok b :: r)) _ = _
      rw [parseParenArgs_complete]
      rfl
  case true =>
    cases gp with
    | none =>
      show pBind (parseParenArgs (Tok.paren (fnArgSeg inp ++ commaFnArgsSeg extras) ::
        Tok.fatArrow :: Tok.exprTok b :: r)) _ = _
      rw [parseParenArgs_complete]
      rfl
    | some gs =>
      have hgs : gs ≠ [] := fun hx => hwf2 (by rw [hx])
      have hseg : armSeg ⟨true, some gs, inp, extras, b⟩ ++ r =
          Tok.kwDefault :: Tok.kwFn :: Tok.lt :: (genSepSeg gs ++ Tok.gt ::
            (Tok.paren (fnArgSeg inp ++ commaFnArgsSeg extras) ::
             Tok.fatArrow :: Tok.exprTok b :: r)) := by
        simp [armSeg, armSegTail]
      rw [hseg]
      show pBind (parseGenericsOpt (Tok.lt :: (genSepSeg gs ++ Tok.gt ::
        (Tok.paren (fnArgSeg inp ++ commaFnArgsSeg extras) ::
         Tok.fatArrow :: Tok.exprTok b :: r)))) _ = _
      rw [parseGenericsOpt_complete_some gs _ hgs]
      show pBind (parseParenArgs (Tok.paren (fnArgSeg inp ++ commaFnArgsSeg extras) ::
        Tok.fatArrow :: Tok.exprTok b :: r)) _ = _
      rw [parseParenArgs_complete]
      rfl

end SpecDispatch
namespace SpecDispatch

theorem armSeg_length_pos (a : DispatchArmExpr) : 0 < (armSeg a).length := by
  obtain ⟨d, gp, inp, extras, b⟩ := a
  cases d <;> simp [armSeg, armSegTail]

theorem armsSeg_cons2 (a x : DispatchArmExpr) (xs : List DispatchArmExpr) :
    armsSeg (a :: x :: xs) = armSeg a ++ Tok.comma :: armsSeg (x :: xs) := rfl

theorem armsSeg_len (arms : List DispatchArmExpr) : arms.length ≤ (armsSeg arms).length := by
  induction arms with
  | nil => simp [armsSeg]
  | cons a as ih =>
    cases as with
    | nil =>
      have := armSeg_length_pos a
      simp [armsSeg]
      omega
    | cons x xs =>
      rw [armsSeg_cons2]
      have := armSeg_length_pos a
      simp at ih ⊢
      omega

theorem startsArm_armSeg (a : DispatchArmExpr) (x : List Tok) :
    startsArm (armSeg a ++ x) = true := by
  obtain ⟨d, gp, inp, extras, b⟩ := a
  cases d <;> simp [armSeg, armSegTail, startsArm]

theorem startsArm_armsSeg (x : DispatchArmExpr) (xs : List DispatchArmExpr) (r : List Tok) :
    startsArm (armsSeg (x :: xs) ++ r) = true := by
  cases xs with
  | nil => exact startsArm_armSeg x r
  | cons y ys =>
    have h : armsSeg (x :: y :: ys) ++ r = armSeg x ++ (Tok.comma :: armsSeg (y :: ys) ++ r) := by
      simp [armsSeg_cons2]
    rw [h]
    exact startsArm_armSeg x _

theorem parseArm_len (ts : List Tok) (a : DispatchArmExpr) (r : List Tok)
    (h : parseArm ts = .ok (a, r)) : r.length < ts.length := by
  obtain ⟨hts, _⟩ := parseArm_sound ts a r h
  subst hts
  have := armSeg_length_pos a
  simp
  omega

theorem parseArmsF_sound : ∀ (fuel : Nat) (ts : List Tok) (as : List DispatchArmExpr) (r : List Tok),
    parseArmsF fuel ts = .ok (as, r) →
    ts = armsSeg as ++ r ∧ (∀ a ∈ as, ArmWF a) ∧ (as = [] → startsArm ts = false) ∧
      (as ≠ [] → ∀ ts2, r = Tok.comma :: ts2 → startsArm ts2 = false) := by
  intro fuel
  induction fuel with
  | zero => intro ts as r h; simp [parseArmsF] at h
  | succ n ih =>
    intro ts as r h
    rw [parseArmsF] at h
    by_cases hstart : startsArm ts = true
    · rw [if_pos hstart] at h
      rw [pBind_ok_iff] at h
      obtain ⟨a, ts1, h1, h2⟩ := h
      obtain ⟨hts, hwf⟩ := parseArm_sound ts a ts1 h1
      subst hts
      cases ts1 with
      | nil =>
        obtain ⟨h3, h4⟩ := Prod.mk.injEq .. ▸ (Except.ok.inj h2)
        subst h3; subst h4
        refine ⟨by simp [armsSeg], ?_, by simp, fun _ ts2x hx => by simp at hx⟩
        intro x hx
        rw [List.mem_singleton] at hx
        subst hx
        exact hwf
      | cons c ts2 =>
        cases c
        all_goals first
        | (obtain ⟨h3, h4⟩ := Prod.mk.injEq .. ▸ (Except.ok.inj h2)
           subst h3
           subst h4
           refine ⟨by simp [armsSeg], ?_, by simp, fun _ ts2x hx => by simp at hx⟩
           intro x hx
           rw [List.mem_singleton] at hx
           subst hx
           exact hwf)
        | (have h2b : (if startsArm ts2 = true then
                pBind (parseArmsF n ts2) fun as r => (Except.ok (a :: as, r) : PRes (List DispatchArmExpr))
              else .ok ([a], Tok.comma :: ts2)) = .ok (as, r) := h2
           by_cases h2s : startsArm ts2 = true
           · rw [if_pos h2s] at h2b
             rw [pBind_ok_iff] at h2b
             obtain ⟨as2, r2, h5, h6⟩ := h2b
             obtain ⟨h7, h8⟩ := Prod.mk.injEq .. ▸ (Except.ok.inj h6)
             subst h7; subst h8
             obtain ⟨hts2, hwf2, hemp, hstop2⟩ := ih ts2 as2 r2 h5
             subst hts2
             cases as2 with
             | nil => rw [hemp rfl] at h2s; simp at h2s
             | cons x xs =>
               refine ⟨?_, ?_, by simp, fun _ ts2x hx => hstop2 (by simp) ts2x hx⟩
               · rw [armsSeg_cons2]
                 simp
               · intro z hz
                 rw [List.mem_cons] at hz
                 rcases hz with hz | hz
                 · subst hz; exact hwf
                 · exact hwf2 z hz
           · rw [if_neg h2s] at h2b
             obtain ⟨h3, h4⟩ := Prod.mk.injEq .. ▸ (Except.ok.inj h2b)
             subst h3; subst h4
             refine ⟨by simp [armsSeg], ?_, by simp, fun _ ts2x hx => by
               injection hx with hh ht
               subst ht
               simpa using h2s⟩
             intro x hx
             rw [List.mem_singleton] at hx
             subst hx
             exact hwf)
    · rw [if_neg hstart] at h
      obtain ⟨h3, h4⟩ := Prod.mk.injEq .. ▸ (Except.ok.inj h)
      subst h3; subst h4
      exact ⟨by simp [armsSeg], by simp, fun _ => Bool.not_eq_true _ ▸ hstart,
        fun hne => absurd rfl hne⟩

theorem parseArmsF_complete : ∀ (as : List DispatchArmExpr) (fuel : Nat) (r : List Tok),
    (∀ a ∈ as, ArmWF a) → as.length < fuel →
    startsArm r = false →
    (as ≠ [] → ∀ r2, r = Tok.comma :: r2 → startsArm r2 = false) →
    parseArmsF fuel (armsSeg as ++ r) = .ok (as, r) := by
  intro as
  induction as with
  | nil =>
    intro fuel r _ hlen hr1 _
    cases fuel with
    | zero => omega
    | succ n =>
      rw [parseArmsF]
      simp [armsSeg, hr1]
  | cons a as2 ih =>
    intro fuel r hwf hlen hr1 hr2
    cases fuel with
    | zero => omega
    | succ n =>
      have hwa : ArmWF a := hwf a (by simp)
      cases as2 with
      | nil =>
        have hseg : armsSeg [a] ++ r = armSeg a ++ r := by simp [armsSeg]
        rw [hseg, parseArmsF, if_pos (startsArm_armSeg a r)]
        show pBind (parseArm (armSeg a ++ r)) _ = _
        rw [parseArm_complete a r hwa]
        cases r with
        | nil => rfl
        | cons c r2 =>
          cases c
          case comma =>
            have hf := hr2 (by simp) r2 rfl
            simp [pBind, hf]
          all_goals simp [pBind]
      | cons x xs =>
        have hseg : armsSeg (a :: x :: xs) ++ r =
            armSeg a ++ (Tok.comma :: (armsSeg (x :: xs) ++ r)) := by
          simp [armsSeg_cons2]
        rw [hseg, parseArmsF, if_pos (startsArm_armSeg a _)]
        show pBind (parseArm (armSeg a ++ (Tok.comma :: (armsSeg (x :: xs) ++ r)))) _ = _
        rw [parseArm_complete a _ hwa]
        have hnext := startsArm_armsSeg x xs r
        have hih := ih n r (fun z hz => hwf z (by simp [hz])) (by simp at hlen ⊢; omega) hr1
          (fun _ => hr2 (by simp))
        simp only [pBind, hnext, if_pos, hih]

theorem parseArms_sound (ts : List Tok) (as : List DispatchArmExpr) (r : List Tok)
    (h : parseArms ts = .ok (as, r)) :
    ts = armsSeg as ++ r ∧ (∀ a ∈ as, ArmWF a) ∧ (as = [] → startsArm ts = false) ∧
      (as ≠ [] → ∀ ts2, r = Tok.comma :: ts2 → startsArm ts2 = false) :=
  parseArmsF_sound (ts.length + 1) ts as r h

theorem parseArms_complete (as : List DispatchArmExpr) (r : List Tok)
    (hwf : ∀ a ∈ as, ArmWF a)
    (hr1 : startsArm r = false)
    (hr2 : as ≠ [] → ∀ r2, r = Tok.comma :: r2 → startsArm r2 = false) :
    parseArms (armsSeg as ++ r) = .ok (as, r) := by
  rw [parseArms]
  refine parseArmsF_complete as ((armsSeg as ++ r).length + 1) r hwf ?_ hr1 hr2
  have := armsSeg_len as
  simp
  omega

theorem parseArmsF_fuelIrrel : ∀ (f1 f2 : Nat) (ts : List Tok),
    ts.length < f1 → ts.length < f2 → parseArmsF f1 ts = parseArmsF f2 ts := by
  intro f1
  induction f1 with
  | zero => intro f2 ts h1 h2; exact absurd h1 (Nat.not_lt_zero _)
  | succ n ih =>
    intro f2 ts h1 h2
    cases f2 with
    | zero => exact absurd h2 (Nat.not_lt_zero _)
    | succ m =>
      rw [parseArmsF]
      rw [parseArmsF]
      by_cases hs : startsArm ts = true
      · rw [if_pos hs, if_pos hs]
        cases hq : parseArm ts with
        | error e => rfl
        | ok p =>
          obtain ⟨a, ts1⟩ := p
          simp only [pBind]
          cases ts1 with
          | nil => rfl
          | cons c ts2 =>
            cases c
            all_goals first
            | rfl
            | (show (if startsArm ts2 = true then
                   pBind (parseArmsF n ts2) fun as r => (Except.ok (a :: as, r) : PRes (List DispatchArmExpr))
                 else .ok ([a], Tok.comma :: ts2)) =
                 (if startsArm ts2 = true then
                   pBind (parseArmsF m ts2) fun as r => (Except.ok (a :: as, r) : PRes (List DispatchArmExpr))
                 else .ok ([a], Tok.comma :: ts2))
               by_cases h2s : startsArm ts2 = true
               · have hlt := parseArm_len ts a (Tok.comma :: ts2) hq
                 have hlen1 : ts2.length < n := by simp at hlt; omega
                 have hlen2 : ts2.length < m := by simp at hlt; omega
                 rw [if_pos h2s, if_pos h2s, ih m ts2 hlen1 hlen2]
               · rw [if_neg h2s, if_neg h2s])
      · rw [if_neg hs, if_neg hs]

theorem parseArms_fuelEq (f : Nat) (ts : List Tok) (h : ts.length < f) :
    parseArmsF f ts = parseArms ts :=
  parseArmsF_fuelIrrel f (ts.length + 1) ts h (by omega)

end SpecDispatch
namespace SpecDispatch

theorem parseExprList_soundAux : ∀ (n : Nat) (ts : List Tok), ts.length ≤ n →
    ∀ (es : List RExpr) (r : List Tok),
    parseExprList ts = .ok (es, r) → r = [] ∧ ExprTermList ts es := by
  intro n
  induction n with
  | zero =>
    intro ts hlen es r h
    rw [List.length_eq_zero.mp (Nat.le_zero.mp hlen)] at h ⊢
    have h2 : (Except.ok (([] : List RExpr), ([] : List Tok)) : PRes (List RExpr)) = .ok (es, r) := h
    obtain ⟨h3, h4⟩ := Prod.mk.injEq .. ▸ (Except.ok.inj h2)
    subst h3; subst h4
    exact ⟨rfl, ExprTermList.nil⟩
  | succ n ih =>
    intro ts hlen es r h
    cases ts with
    | nil =>
      have h2 : (Except.ok (([] : List RExpr), ([] : List Tok)) : PRes (List RExpr)) = .ok (es, r) := h
      obtain ⟨h3, h4⟩ := Prod.mk.injEq .. ▸ (Except.ok.inj h2)
      subst h3; subst h4
      exact ⟨rfl, ExprTermList.nil⟩
    | cons t ts1 =>
      cases t <;> try (simp [parseExprList] at h)
      case exprTok ex =>
        cases ts1 with
        | nil =>
          have h2 : (Except.ok ([ex], ([] : List Tok)) : PRes (List RExpr)) = .ok (es, r) := h
          obtain ⟨h3, h4⟩ := Prod.mk.injEq .. ▸ (Except.ok.inj h2)
          subst h3; subst h4
          exact ⟨rfl, ExprTermList.single ex⟩
        | cons c ts2 =>
          cases c <;> try (simp [parseExprList] at h)
          case comma =>
            have h2 : pBind (parseExprList ts2)
                (fun es r => (Except.ok (ex :: es, r) : PRes (List RExpr))) = .ok (es, r) := h
            rw [pBind_ok_iff] at h2
            obtain ⟨es2, r2, h3, h4⟩ := h2
            obtain ⟨h5, h6⟩ := Prod.mk.injEq .. ▸ (Except.ok.inj h4)
            subst h5; subst h6
            have hlen2 : ts2.length ≤ n := by simp at hlen; omega
            obtain ⟨hr, hterm⟩ := ih ts2 hlen2 es2 r2 h3
            subst hr
            exact ⟨rfl, ExprTermList.cons ex ts2 es2 hterm⟩

theorem parseExprList_sound (ts : List Tok) (es : List RExpr) (r : List Tok)
    (h : parseExprList ts = .ok (es, r)) : r = [] ∧ ExprTermList ts es :=
  parseExprList_soundAux ts.length ts le_rfl es r h

theorem parseExprList_complete (ts : List Tok) (es : List RExpr) (h : ExprTermList ts es) :
    parseExprList ts = .ok (es, []) := by
  induction h with
  | nil => rfl
  | single e => rfl
  | cons e ts2 es2 h2 ih =>
    show pBind (parseExprList ts2) _ = _
    rw [ih]
    rfl

theorem exprTermList_skipOptComma (ts : List Tok) (es : List RExpr) (h : ExprTermList ts es) :
    skipOptComma ts = ts := by
  cases h <;> rfl

theorem extrasCode_of_parse (tsG : List Tok) (es : List RExpr)
    (h : parseExprList (skipOptComma tsG) = .ok (es, [])) : ExtrasCode tsG es := by
  cases tsG with
  | nil =>
    left
    exact (parseExprList_sound _ es [] h).2
  | cons c g =>
    cases c
    case comma =>
      right
      exact ⟨g, rfl, (parseExprList_sound g es [] h).2⟩
    all_goals
      (left
       exact (parseExprList_sound _ es [] h).2)

theorem extrasCode_parse (xseg : List Tok) (es : List RExpr) (h : ExtrasCode xseg es) :
    parseExprList (skipOptComma xseg) = .ok (es, []) := by
  rcases h with h | ⟨x2, hx, h⟩
  · rw [exprTermList_skipOptComma xseg es h]
    exact parseExprList_complete xseg es h
  · subst hx
    exact parseExprList_complete x2 es h

theorem parseSDE_sound (ts : List Tok) (e : SpecializedDispatchExpr) (r : List Tok)
    (h : parseSDE ts = .ok (e, r)) :
    r = [] ∧ TopShapeWith ExtrasCode ts e ∧
      (e.arms = [] ∨ e.input_expr.leadDefault = false) := by
  rw [parseSDE] at h
  rw [pBind_ok_iff] at h; obtain ⟨fromTy, tsA, h1, h⟩ := h
  rw [pBind_ok_iff] at h; obtain ⟨u1, tsB, h2, h⟩ := h
  rw [pBind_ok_iff] at h; obtain ⟨toTy, tsC, h3, h⟩ := h
  rw [pBind_ok_iff] at h; obtain ⟨u2, tsD, h4, h⟩ := h
  rw [pBind_ok_iff] at h; obtain ⟨arms, tsE, h5, h⟩ := h
  rw [pBind_ok_iff] at h; obtain ⟨u3, tsF, h6, h⟩ := h
  rw [pBind_ok_iff] at h; obtain ⟨v, tsG, h7, h⟩ := h
  rw [pBind_ok_iff] at h; obtain ⟨es, tsH, h8, h9⟩ := h
  obtain ⟨he, hr⟩ := Prod.mk.injEq .. ▸ (Except.ok.inj h9)
  subst he; subst hr
  have hA := parseTy_sound ts fromTy tsA h1
  subst hA
  have hB := expectArrow_sound tsA u1 tsB h2
  subst hB
  have hC := parseTy_sound tsB toTy tsC h3
  subst hC
  have hD := expectComma_sound tsC u2 tsD h4
  subst hD
  obtain ⟨hE, hwf, _, hstop⟩ := parseArms_sound tsD arms tsE h5
  subst hE
  have hF := expectComma_sound tsE u3 tsF h6
  subst hF
  have hG := parseExprAtom_sound tsF v tsG h7
  subst hG
  obtain ⟨hH, _⟩ := parseExprList_sound (skipOptComma tsG) es tsH h8
  subst hH
  refine ⟨rfl, ⟨hwf, tsG, extrasCode_of_parse tsG es h8, by simp⟩, ?_⟩
  cases arms with
  | nil => exact Or.inl rfl
  | cons a as2 =>
    exact Or.inr (hstop (by simp) (Tok.exprTok v :: tsG) rfl)

theorem parseSDE_complete (ts : List Tok) (e : SpecializedDispatchExpr)
    (h : TopShapeWith ExtrasCode ts e)
    (hside : e.arms = [] ∨ e.input_expr.leadDefault = false) :
    parseSDE ts = .ok (e, []) := by
  obtain ⟨hwf, xseg, hx, hts⟩ := h
  obtain ⟨fromTy, toTy, arms, v, es⟩ := e
  simp only at hts hside
  subst hts
  show pBind (parseArms (armsSeg arms ++ Tok.comma :: Tok.exprTok v :: xseg)) _ = _
  rw [parseArms_complete arms (Tok.comma :: Tok.exprTok v :: xseg) hwf rfl
    (fun hne r2 hr => by
      injection hr with h1 h2
      rw [← h2]
      show v.leadDefault = false
      rcases hside with hnil | hlead
      · exact absurd hnil hne
      · exact hlead)]
  show pBind (parseExprList (skipOptComma xseg)) _ = _
  rw [extrasCode_parse xseg es hx]
  rfl

theorem parseFull_ok_shape (ts : List Tok) (e : SpecializedDispatchExpr)
    (h : parseFull ts = .ok e) :
    TopShapeWith ExtrasCode ts e ∧ (e.arms = [] ∨ e.input_expr.leadDefault = false) := by
  rw [parseFull] at h
  cases hq : parseSDE ts with
  | error err => rw [hq] at h; simp at h
  | ok p =>
    obtain ⟨e2, r⟩ := p
    rw [hq] at h
    obtain ⟨hr0, hshape, hside⟩ := parseSDE_sound ts e2 r hq
    subst hr0
    have h2 : (Except.ok e2 : Except PErr SpecializedDispatchExpr) = .ok e := h
    rw [Except.ok.injEq] at h2
    subst h2
    exact ⟨hshape, hside⟩

theorem parseFull_of_shape (ts : List Tok) (e : SpecializedDispatchExpr)
    (h : TopShapeWith ExtrasCode ts e)
    (hside : e.arms = [] ∨ e.input_expr.leadDefault = false) : parseFull ts = .ok e := by
  rw [parseFull, parseSDE_complete ts e h hside]

/-- A stream in the top-level shape whose arm list is nonempty and whose
value expression begins with the raw default keyword is rejected: after the
arm, the lookahead sees the comma followed by the default token, consumes
the comma, and the arm sub-parser then fails expecting fn, exactly as
parse_punctuated_arms does through peek2. -/
theorem defaultLeadValue_parse_fails :
    parseFull (Tok.tyTok ⟨"E"⟩ :: Tok.arrow :: Tok.tyTok ⟨"S"⟩ :: Tok.comma ::
        (armSeg exArm ++ [Tok.comma, Tok.exprTok ⟨"u", true⟩])) =
      .error ("expected fn", [Tok.exprTok ⟨"u", true⟩]) ∧
    TopShapeWith ExtrasCode
      (Tok.tyTok ⟨"E"⟩ :: Tok.arrow :: Tok.tyTok ⟨"S"⟩ :: Tok.comma ::
        (armSeg exArm ++ [Tok.comma, Tok.exprTok ⟨"u", true⟩]))
      ⟨⟨"E"⟩, ⟨"S"⟩, [exArm], ⟨"u", true⟩, []⟩ := by
  refine ⟨rfl, ?_, [], Or.inl ExprTermList.nil, ?_⟩
  · intro a ha
    rw [List.mem_singleton] at ha
    subst ha
    simp [ArmWF, exArm]
  · simp [armsSeg]

theorem armSeg_head (a : DispatchArmExpr) :
    ∃ q, armSeg a = Tok.kwDefault :: q ∨ armSeg a = Tok.kwFn :: q := by
  obtain ⟨d, gp, inp, extras, b⟩ := a
  cases d
  · exact ⟨_, Or.inr rfl⟩
  · exact ⟨_, Or.inl rfl⟩

theorem armsSeg_split (a : DispatchArmExpr) (as : List DispatchArmExpr) :
    ∃ y, armsSeg (a :: as) = armSeg a ++ y := by
  cases as with
  | nil => exact ⟨[], by simp [armsSeg]⟩
  | cons x xs => exact ⟨Tok.comma :: armsSeg (x :: xs), rfl⟩

end SpecDispatch
namespace SpecDispatch

theorem decodeFnArgName_fnArgNameO (nm : FnArgName) :
    decodeFnArgName (fnArgNameO nm) = some nm := by
  cases nm <;> rfl

theorem decodeCommaArgs_complete (as : List FnArg) :
    decodeCommaArgs (commaFnArgsO as) = some as := by
  induction as with
  | nil => rfl
  | cons a as ih =>
    show (match decodeFnArgName (fnArgNameO a.name), decodeCommaArgs (commaFnArgsO as) with
          | some nm, some as2 => some ((⟨nm, a.ty⟩ : FnArg) :: as2)
          | _, _ => none) = _
    rw [decodeFnArgName_fnArgNameO, ih]

theorem decodeGenTail_complete : ∀ (gs : List RGenericParam) (rest : List OTok),
    decodeGenTail (punctGenO gs ++ OTok.gt :: rest) = some (gs, rest) := by
  intro gs
  induction gs with
  | nil => intro rest; rfl
  | cons g gs2 ih =>
    intro rest
    cases gs2 with
    | nil => rfl
    | cons x xs =>
      have hseg : punctGenO (g :: x :: xs) ++ OTok.gt :: rest =
          OTok.genO g :: OTok.comma :: (punctGenO (x :: xs) ++ OTok.gt :: rest) := by
        simp [punctGenO]
      rw [hseg]
      show (match decodeGenTail (punctGenO (x :: xs) ++ OTok.gt :: rest) with
            | some (gs, r) => some (g :: gs, r)
            | none => none) = _
      rw [ih]

theorem decodeGens_notLt (ts : List OTok) (h : ∀ x, ts ≠ OTok.lt :: x) :
    decodeGens ts = some (none, ts) := by
  cases ts with
  | nil => rfl
  | cons t ts1 =>
    cases t
    case lt => exact absurd rfl (h ts1)
    all_goals rfl

theorem decodeGens_lt (ts : List OTok) : decodeGens (OTok.lt :: ts) =
    match decodeGenTail ts with
    | some (gs, r) => some (some gs, r)
    | none => none := rfl

theorem decodeMethodCore_complete (inp : FnArg) (extras : List FnArg) (rt : RType) (b : RExpr) :
    decodeMethodCore (OTok.kwFn :: OTok.identO ("dispatch") ::
      OTok.parenO (fnArgNameO inp.name :: OTok.colon :: OTok.tyO inp.ty :: commaFnArgsO extras) ::
      [OTok.arrow, OTok.tyO rt, OTok.braceO [OTok.exprO b]]) =
    some ("dispatch", inp :: extras, rt, b) := by
  show (match decodeFnArgName (fnArgNameO inp.name), decodeCommaArgs (commaFnArgsO extras) with
        | some nm, some as => some ("dispatch", (⟨nm, inp.ty⟩ : FnArg) :: as, rt, b)
        | _, _ => none) = _
  rw [decodeFnArgName_fnArgNameO, decodeCommaArgs_complete]

theorem decodeMethod_complete (dflt : Bool) (inp : FnArg) (extras : List FnArg)
    (rt : RType) (b : RExpr) :
    decodeMethod ((if dflt then [OTok.kwDefault] else []) ++
      OTok.kwFn :: OTok.identO ("dispatch") ::
      OTok.parenO (fnArgNameO inp.name :: OTok.colon :: OTok.tyO inp.ty :: commaFnArgsO extras) ::
      [OTok.arrow, OTok.tyO rt, OTok.braceO [OTok.exprO b]]) =
    some (dflt, "dispatch", inp :: extras, rt, b) := by
  cases dflt
  · show (match decodeMethodCore (OTok.kwFn :: OTok.identO ("dispatch") ::
        OTok.parenO (fnArgNameO inp.name :: OTok.colon :: OTok.tyO inp.ty :: commaFnArgsO extras) ::
        [OTok.arrow, OTok.tyO rt, OTok.braceO [OTok.exprO b]]) with
      | some (mn, ps, rt2, b2) => some (false, mn, ps, rt2, b2)
      | none => none) = _
    rw [decodeMethodCore_complete]
  · show (match decodeMethodCore (OTok.kwFn :: OTok.identO ("dispatch") ::
        OTok.parenO (fnArgNameO inp.name :: OTok.colon :: OTok.tyO inp.ty :: commaFnArgsO extras) ::
        [OTok.arrow, OTok.tyO rt, OTok.braceO [OTok.exprO b]]) with
      | some (mn, ps, rt2, b2) => some (true, mn, ps, rt2, b2)
      | none => none) = _
    rw [decodeMethodCore_complete]

theorem decodeImpl_eq (rest : List OTok) : decodeImpl (OTok.kwImpl :: rest) =
    match decodeGens rest with
    | some (gp, OTok.identO tn :: OTok.lt :: OTok.tyO ta :: OTok.gt ::
        OTok.kwFor :: OTok.tyO st :: OTok.braceO mb :: rest2) =>
        (match decodeMethod mb with
         | some (d, mn, ps, rt, b) => some ((⟨gp, tn, ta, st, d, mn, ps, rt, b⟩ : ImplInfo), rest2)
         | none => none)
    | _ => none := rfl

theorem decodeImpl_complete (toType : RType) (a : DispatchArmExpr) (rest : List OTok) :
    decodeImpl (generateTraitImplementation a.default traitNameStr a.generic_params
      a.input_expr a.extra_args toType a.body ++ rest) =
    some (implInfoOfArm toType a, rest) := by
  obtain ⟨d, gp, inp, extras, b⟩ := a
  cases gp with
  | none =>
    show decodeImpl (OTok.kwImpl :: (OTok.identO traitNameStr :: OTok.lt :: OTok.tyO inp.ty ::
      OTok.gt :: OTok.kwFor :: OTok.tyO inp.ty :: OTok.braceO
        ((if d then [OTok.kwDefault] else []) ++
         OTok.kwFn :: OTok.identO ("dispatch") ::
         OTok.parenO (fnArgNameO inp.name :: OTok.colon :: OTok.tyO inp.ty :: commaFnArgsO extras) ::
         [OTok.arrow, OTok.tyO toType, OTok.braceO [OTok.exprO b]]) :: rest)) = _
    rw [decodeImpl_eq]
    rw [decodeGens_notLt _ (fun x hx => by simp at hx)]
    show (match decodeMethod ((if d then [OTok.kwDefault] else []) ++
        OTok.kwFn :: OTok.identO ("dispatch") ::
        OTok.parenO (fnArgNameO inp.name :: OTok.colon :: OTok.tyO inp.ty :: commaFnArgsO extras) ::
        [OTok.arrow, OTok.tyO toType, OTok.braceO [OTok.exprO b]]) with
      | some (d2, mn, ps, rt, b2) =>
          some ((⟨none, traitNameStr, inp.ty, inp.ty, d2, mn, ps, rt, b2⟩ : ImplInfo), rest)
      | none => none) = _
    rw [decodeMethod_complete]
    rfl
  | some gs =>
    have hassoc : generateTraitImplementation d traitNameStr (some gs) inp extras toType b ++ rest =
        OTok.kwImpl :: OTok.lt :: (punctGenO gs ++ OTok.gt ::
          (OTok.identO traitNameStr :: OTok.lt :: OTok.tyO inp.ty :: OTok.gt ::
           OTok.kwFor :: OTok.tyO inp.ty :: OTok.braceO
             ((if d then [OTok.kwDefault] else []) ++
              OTok.kwFn :: OTok.identO ("dispatch") ::
              OTok.parenO (fnArgNameO inp.name :: OTok.colon :: OTok.tyO inp.ty :: commaFnArgsO extras) ::
              [OTok.arrow, OTok.tyO toType, OTok.braceO [OTok.exprO b]]) :: rest)) := by
      simp [generateTraitImplementation]
    rw [hassoc, decodeImpl_eq, decodeGens_lt, decodeGenTail_complete]
    show (match decodeMethod ((if d then [OTok.kwDefault] else []) ++
        OTok.kwFn :: OTok.identO ("dispatch") ::
        OTok.parenO (fnArgNameO inp.name :: OTok.colon :: OTok.tyO inp.ty :: commaFnArgsO extras) ::
        [OTok.arrow, OTok.tyO toType, OTok.braceO [OTok.exprO b]]) with
      | some (d2, mn, ps, rt, b2) =>
          some ((⟨some gs, traitNameStr, inp.ty, inp.ty, d2, mn, ps, rt, b2⟩ : ImplInfo), rest)
      | none => none) = _
    rw [decodeMethod_complete]
    rfl

end SpecDispatch
namespace SpecDispatch

theorem genImpl_head (toType : RType) (a : DispatchArmExpr) :
    ∃ tl, generateTraitImplementation a.default traitNameStr a.generic_params a.input_expr
      a.extra_args toType a.body = OTok.kwImpl :: tl :=
  ⟨_, rfl⟩

theorem armImplsO_len (toType : RType) (arms : List DispatchArmExpr) :
    arms.length ≤ (armImplsO toType arms).length := by
  induction arms with
  | nil => simp [armImplsO]
  | cons a as ih =>
    obtain ⟨tl, htl⟩ := genImpl_head toType a
    show as.length + 1 ≤ (generateTraitImplementation a.default traitNameStr a.generic_params
      a.input_expr a.extra_args toType a.body ++ armImplsO toType as).length
    rw [htl]
    simp
    omega

theorem decodeImplsF_complete : ∀ (arms : List DispatchArmExpr) (toType : RType)
    (fuel : Nat) (rest : List OTok),
    arms.length < fuel → (∀ x, rest ≠ OTok.kwImpl :: x) →
    decodeImplsF fuel (armImplsO toType arms ++ rest) =
      some (arms.map (implInfoOfArm toType), rest) := by
  intro arms
  induction arms with
  | nil =>
    intro toType fuel rest hf hr
    cases fuel with
    | zero => omega
    | succ n =>
      show decodeImplsF (n + 1) rest = _
      cases rest with
      | nil => rfl
      | cons t r2 =>
        cases t
        case kwImpl => exact absurd rfl (hr r2)
        all_goals rfl
  | cons a as ih =>
    intro toType fuel rest hf hr
    cases fuel with
    | zero => omega
    | succ n =>
      have hdi : decodeImpl (armImplsO toType (a :: as) ++ rest) =
          some (implInfoOfArm toType a, armImplsO toType as ++ rest) := by
        have hx : armImplsO toType (a :: as) ++ rest =
            generateTraitImplementation a.default traitNameStr a.generic_params a.input_expr
              a.extra_args toType a.body ++ (armImplsO toType as ++ rest) := by
          simp [armImplsO]
        rw [hx]
        exact decodeImpl_complete toType a (armImplsO toType as ++ rest)
      show (match decodeImpl (armImplsO toType (a :: as) ++ rest) with
            | some (i, r) =>
                (match decodeImplsF n r with
                 | some (is, r2) => some (i :: is, r2)
                 | none => none)
            | none => none) = _
      rw [hdi]
      show (match decodeImplsF n (armImplsO toType as ++ rest) with
            | some (is, r2) => some (implInfoOfArm toType a :: is, r2)
            | none => none) = _
      rw [ih toType n rest (by simp at hf ⊢; omega) hr]
      rfl

theorem decodeImpls_complete (arms : List DispatchArmExpr) (toType : RType) (rest : List OTok)
    (hr : ∀ x, rest ≠ OTok.kwImpl :: x) :
    decodeImpls (armImplsO toType arms ++ rest) =
      some (arms.map (implInfoOfArm toType), rest) := by
  rw [decodeImpls]
  refine decodeImplsF_complete arms toType _ rest ?_ hr
  have := armImplsO_len toType arms
  simp
  omega

theorem decodeCommaExprs_complete (es : List RExpr) :
    decodeCommaExprs (commaExprsO es) = some es := by
  induction es with
  | nil => rfl
  | cons e es ih =>
    show (match decodeCommaExprs (commaExprsO es) with
          | some es2 => some (e :: es2)
          | none => none) = _
    rw [ih]

theorem decodeCallEnd_complete (f : RType) (v : RExpr) (extras : List RExpr) :
    decodeCallEnd (generateDispatchCall f traitNameStr v extras) =
      some ⟨f, traitNameStr, f, "dispatch", v :: extras⟩ := by
  show (match decodeCommaExprs (commaExprsO extras) with
        | some es => some ((⟨f, traitNameStr, f, "dispatch", v :: es⟩ : CallInfo))
        | none => none) = _
  rw [decodeCommaExprs_complete]

theorem decodeDecl_complete (extras : List FnArg) (rt : RType) (rest : List OTok) :
    decodeDecl (generateTraitDeclaration traitNameStr extras rt ++ rest) =
      some (⟨traitNameStr, "T", "dispatch", extras, rt⟩, rest) := by
  show (if ("T" : String) = "T" then
          (match decodeCommaArgs (commaFnArgsO extras) with
           | some as => some ((⟨traitNameStr, "T", "dispatch", as, rt⟩ : DeclInfo), rest)
           | none => none)
        else none) = _
  rw [if_pos rfl, decodeCommaArgs_complete]

theorem decodeOutput_sdeToTokens (e : SpecializedDispatchExpr) :
    decodeOutput (sdeToTokens e) =
      some (⟨traitNameStr, "T", "dispatch", collectExtraArgs e.arms [], e.to_type⟩,
            e.arms.map (implInfoOfArm e.to_type), callInfoOf e) := by
  show (match decodeDecl (generateTraitDeclaration traitNameStr (collectExtraArgs e.arms []) e.to_type
      ++ (armImplsO e.to_type e.arms ++
          generateDispatchCall e.from_type traitNameStr e.input_expr e.extra_args)) with
    | some (d, r1) =>
        (match decodeImpls r1 with
         | some (is, r2) =>
             (match decodeCallEnd r2 with
              | some c => some (d, is, c)
              | none => none)
         | none => none)
    | none => none) = _
  rw [decodeDecl_complete]
  show (match decodeImpls (armImplsO e.to_type e.arms ++
      generateDispatchCall e.from_type traitNameStr e.input_expr e.extra_args) with
    | some (is, r2) =>
        (match decodeCallEnd r2 with
         | some c => some ((⟨traitNameStr, "T", "dispatch", collectExtraArgs e.arms [], e.to_type⟩ : DeclInfo), is, c)
         | none => none)
    | none => none) = _
  rw [decodeImpls_complete e.arms e.to_type _ (fun x hx => by simp [generateDispatchCall] at hx)]
  show (match decodeCallEnd (generateDispatchCall e.from_type traitNameStr e.input_expr e.extra_args) with
    | some c => some ((⟨traitNameStr, "T", "dispatch", collectExtraArgs e.arms [], e.to_type⟩ : DeclInfo),
        e.arms.map (implInfoOfArm e.to_type), c)
    | none => none) = _
  rw [decodeCallEnd_complete]
  rfl

theorem collectExtraArgs_eq : ∀ (arms : List DispatchArmExpr) (acc : List FnArg),
    collectExtraArgs arms acc =
      match (arms.filter fun a => a.default).getLast? with
      | some a => a.extra_args
      | none => acc := by
  intro arms
  induction arms with
  | nil => intro acc; rfl
  | cons a as ih =>
    intro acc
    show collectExtraArgs as (if a.default then a.extra_args else acc) = _
    rw [ih, List.filter_cons]
    cases ha : a.default
    · simp only [Bool.false_eq_true, if_false]
    · simp only [eq_self_iff_true, if_true]
      cases hf : (as.filter fun x => x.default) with
      | nil => simp
      | cons c cs =>
        rw [List.getLast?_cons_cons]
        cases hl : (c :: cs).getLast? with
        | none => simp at hl
        | some x => simp [hl]

theorem collectExtraArgs_lastDefault (arms : List DispatchArmExpr) :
    collectExtraArgs arms [] = lastDefaultExtras arms := by
  rw [collectExtraArgs_eq, lastDefaultExtras]

end SpecDispatch
namespace SpecDispatch

/-- C1 counterexample: the stream written A arrow B comma comma v w, with no
comma between the value expression v and the extra argument w, parses
successfully, yet it has no decomposition in the claimed shape, whose
extras part requires a comma before each extra argument.  This refutes the
claimed exactly-when characterization of the parser. -/
theorem c1_counterexample :
    parseFull cexTs = .ok cexE ∧ ¬ ∃ e, TopShapeWith ExtrasClaimed cexTs e := by
  refine ⟨rfl, ?_⟩
  rintro ⟨e, hwf, xseg, hx, heq⟩
  cases harm : e.arms with
  | nil =>
    rw [harm] at heq
    simp [cexTs, armsSeg] at heq
    obtain ⟨h1, h2, h3, h4⟩ := heq
    rw [← h4] at hx
    cases hx
  | cons a as =>
    rw [harm] at heq
    obtain ⟨y, hy⟩ := armsSeg_split a as
    rw [hy] at heq
    obtain ⟨q, hq | hq⟩ := armSeg_head a <;> rw [hq] at heq <;> simp [cexTs] at heq

/-- C1 amended: parsing succeeds exactly when the stream has the
type-pair-first shape source type, arrow, destination type, comma, arm
list, comma, value expression, then an optional comma followed by a
comma-terminated list of zero or more extra argument expressions, where the
separating comma before the first extra argument may be omitted, and in
addition, whenever the arm list is nonempty, the value expression does not
begin with the raw contextual keyword default: in that case the arm-loop
lookahead consumes the comma before the value expression and fails
expecting fn.  The parsed expression records the source type, destination
type, the arms in source order, the value expression and the extra
arguments in source order. -/
theorem c1_amended_parse_iff_shape (ts : List Tok) (e : SpecializedDispatchExpr) :
    parseFull ts = .ok e ↔
      TopShapeWith ExtrasCode ts e ∧ (e.arms = [] ∨ e.input_expr.leadDefault = false) :=
  ⟨parseFull_ok_shape ts e, fun h => parseFull_of_shape ts e h.1 h.2⟩

/-- C2: for every parsed dispatch expression, the generator emits one trait
implementation per arm, in arm order; each implementation has the arm
input-binding type as both the implemented-for type and the trait type
argument, carries the generic-parameter list exactly when the arm declared
one, the default modifier exactly when the arm is marked default, and the
method parameter names and body are the arm binding names and body spliced
verbatim. -/
theorem c2_one_impl_per_arm (e : SpecializedDispatchExpr) :
    ∃ d c, decodeOutput (sdeToTokens e) =
      some (d, e.arms.map (implInfoOfArm e.to_type), c) :=
  ⟨_, _, decodeOutput_sdeToTokens e⟩

/-- C3: when exactly one arm is marked default, the generated trait
declaration introduces exactly one trait with exactly one method, with the
fixed trait and method names, generic over one type parameter, whose first
parameter is typed as that parameter, whose remaining parameters are the
extra parameters of the default arm, and whose return type is the
destination type. -/
theorem c3_trait_declaration (e : SpecializedDispatchExpr) (d : DispatchArmExpr)
    (h : e.arms.filter (fun a => a.default) = [d]) :
    ∃ is c, decodeOutput (sdeToTokens e) =
      some (⟨traitNameStr, "T", "dispatch", d.extra_args, e.to_type⟩, is, c) := by
  have hm := decodeOutput_sdeToTokens e
  rw [collectExtraArgs_lastDefault, lastDefaultExtras, h] at hm
  exact ⟨e.arms.map (implInfoOfArm e.to_type), callInfoOf e, by simpa using hm⟩

/-- C3 witness at a concrete expression with exactly one default arm. -/
theorem c3_witness :
    exE1.arms.filter (fun a => a.default) = [exDefArm] ∧
    ∃ is c, decodeOutput (sdeToTokens exE1) =
      some (⟨traitNameStr, "T", "dispatch", exDefArm.extra_args, exE1.to_type⟩, is, c) :=
  ⟨rfl, c3_trait_declaration exE1 exDefArm rfl⟩

/-- C4: the complete generator output is a single brace block containing, in
order, the trait declaration, the trait implementations in arm order, and,
as the final expression, one dispatch call naming the source type both as
the self type and as the trait type argument, passing the value expression
first and then the extra arguments in parsed order. -/
theorem c4_output_block_structure (e : SpecializedDispatchExpr) :
    decodeOutput (sdeToTokens e) =
      some (⟨traitNameStr, "T", "dispatch", lastDefaultExtras e.arms, e.to_type⟩,
            e.arms.map (implInfoOfArm e.to_type),
            ⟨e.from_type, traitNameStr, e.from_type, "dispatch",
             e.input_expr :: e.extra_args⟩) := by
  have hm := decodeOutput_sdeToTokens e
  rw [collectExtraArgs_lastDefault] at hm
  exact hm

end SpecDispatch
namespace SpecDispatch

/-- C5: the arm-list parser begins an arm exactly when the next token is the
default or fn keyword; after an arm it consumes a comma only when the token
after the comma is again default or fn; the list may be empty, ends without
its own trailing separator, and the comma preceding the value expression is
left unconsumed by the loop. -/
theorem c5_arm_list_lookahead :
    (∀ ts, startsArm ts = false → parseArms ts = .ok ([], ts)) ∧
    (∀ ts err, startsArm ts = true → parseArm ts = .error err → parseArms ts = .error err) ∧
    (∀ ts a ts2, parseArm ts = .ok (a, Tok.comma :: ts2) → startsArm ts2 = true →
      parseArms ts = pBind (parseArms ts2) (fun as r => .ok (a :: as, r))) ∧
    (∀ ts a ts1, parseArm ts = .ok (a, ts1) →
      (∀ ts2, ts1 = Tok.comma :: ts2 → startsArm ts2 = false) →
      parseArms ts = .ok ([a], ts1)) ∧
    (∀ ts arms r, parseArms ts = .ok (arms, r) → ts = armsSeg arms ++ r) := by
  refine ⟨?_, ?_, ?_, ?_, ?_⟩
  · intro ts h
    rw [parseArms, parseArmsF, if_neg (by simp [h])]
  · intro ts err h1 h2
    rw [parseArms, parseArmsF, if_pos h1]
    show pBind (parseArm ts) _ = _
    rw [h2]
    rfl
  · intro ts a ts2 h1 h2
    have hs : startsArm ts = true := by
      obtain ⟨hts, _⟩ := parseArm_sound ts a _ h1
      rw [hts]
      exact startsArm_armSeg a _
    rw [parseArms, parseArmsF, if_pos hs]
    show pBind (parseArm ts) _ = _
    rw [h1]
    show (if startsArm ts2 = true then
        pBind (parseArmsF ts.length ts2) fun as r =>
          (Except.ok (a :: as, r) : PRes (List DispatchArmExpr))
      else .ok ([a], Tok.comma :: ts2)) = _
    rw [if_pos h2]
    have hlen : ts2.length < ts.length := by
      have := parseArm_len ts a (Tok.comma :: ts2) h1
      simp at this
      omega
    rw [parseArms_fuelEq ts.length ts2 hlen]
  · intro ts a ts1 h1 h2
    have hs : startsArm ts = true := by
      obtain ⟨hts, _⟩ := parseArm_sound ts a _ h1
      rw [hts]
      exact startsArm_armSeg a _
    rw [parseArms, parseArmsF, if_pos hs]
    show pBind (parseArm ts) _ = _
    rw [h1]
    cases ts1 with
    | nil => rfl
    | cons c ts2 =>
      cases c
      all_goals first
      | rfl
      | (show (if startsArm ts2 = true then
            pBind (parseArmsF ts.length ts2) fun as r =>
              (Except.ok (a :: as, r) : PRes (List DispatchArmExpr))
          else .ok ([a], Tok.comma :: ts2)) = _
         rw [if_neg (by simp [h2 ts2 rfl])])
  · intro ts arms r h
    exact (parseArms_sound ts arms r h).1

/-- C5 witness: concrete instances of each conjunct. -/
theorem c5_witness :
    parseArms [Tok.comma] = .ok ([], [Tok.comma]) ∧
    parseArms [Tok.kwFn] = .error ("expected parenthesized arguments", []) ∧
    parseArms (armSeg exArm ++ Tok.comma :: armSeg exArm) =
      pBind (parseArms (armSeg exArm)) (fun as r => .ok (exArm :: as, r)) ∧
    parseArms (armSeg exArm ++ [Tok.comma, Tok.exprTok ⟨"v0", false⟩]) =
      .ok ([exArm], [Tok.comma, Tok.exprTok ⟨"v0", false⟩]) ∧
    armSeg exArm ++ Tok.comma :: armSeg exArm = armsSeg [exArm, exArm] ++ [] :=
  ⟨c5_arm_list_lookahead.1 [Tok.comma] rfl,
   c5_arm_list_lookahead.2.1 [Tok.kwFn] ("expected parenthesized arguments", []) rfl rfl,
   c5_arm_list_lookahead.2.2.1 (armSeg exArm ++ Tok.comma :: armSeg exArm) exArm (armSeg exArm)
     rfl rfl,
   c5_arm_list_lookahead.2.2.2.1 (armSeg exArm ++ [Tok.comma, Tok.exprTok ⟨"v0", false⟩]) exArm
     [Tok.comma, Tok.exprTok ⟨"v0", false⟩] rfl (fun ts2 h => by cases h; rfl),
   c5_arm_list_lookahead.2.2.2.2 (armSeg exArm ++ Tok.comma :: armSeg exArm) [exArm, exArm] []
     rfl⟩

/-- C6: code generation is total on parsed expressions: whenever parsing
succeeds, the macro returns the generated token stream and never raises a
macro-time error, regardless of duplicate arm types, missing default arms,
zero arms, or mismatched extra-parameter lists. -/
theorem c6_generation_total (ts : List Tok) (e : SpecializedDispatchExpr)
    (h : parseFull ts = .ok e) : specializedDispatch ts = .ok (sdeToTokens e) := by
  rw [specializedDispatch, h]

/-- C6 witness: a stream with two identical concrete arms and no default arm
still expands without a macro-time error. -/
theorem c6_witness :
    parseFull exTsNoDefault = .ok exENoDefault ∧
    specializedDispatch exTsNoDefault = .ok (sdeToTokens exENoDefault) :=
  ⟨rfl, c6_generation_total exTsNoDefault exENoDefault rfl⟩

/-- C7: a structural parse error is the sole result of the macro, anchored
at the offending token, and generation never runs; in particular a token
that is neither an identifier nor an underscore in a binding-name position
fails with the message expected identifier or underscore. -/
theorem c7_error_is_sole_result :
    (∀ (ts : List Tok) (err : PErr), parseFull ts = .error err →
      specializedDispatch ts = .error err) ∧
    (∀ (t : Tok) (r : List Tok), (∀ s, t ≠ Tok.identTok s) → t ≠ Tok.underscore →
      parseFnArgName (t :: r) = .error ("expected identifier or underscore", t :: r)) := by
  constructor
  · intro ts err h
    rw [specializedDispatch, h]
  · intro t r h1 h2
    cases t
    all_goals first
    | rfl
    | exact absurd rfl (h1 _)
    | exact absurd rfl h2

/-- C7 witness: a stream missing the arrow aborts with its parse error and
produces no output, and a comma in a binding-name position yields the
documented message anchored at that token. -/
theorem c7_witness :
    specializedDispatch [Tok.tyTok ⟨"E"⟩] = .error ("expected arrow", []) ∧
    parseFnArgName [Tok.comma] = .error ("expected identifier or underscore", [Tok.comma]) :=
  ⟨c7_error_is_sole_result.1 [Tok.tyTok ⟨"E"⟩] ("expected arrow", []) rfl,
   c7_error_is_sole_result.2 Tok.comma [] (fun _ h => Tok.noConfusion h)
     (fun h => Tok.noConfusion h)⟩

/-- C9: parsing is deterministic: two runs of the parser on the same token
stream yield the same result, error or structurally equal expression. -/
theorem c9_parse_deterministic (ts : List Tok) (r1 r2 : Except PErr SpecializedDispatchExpr)
    (h1 : parseFull ts = r1) (h2 : parseFull ts = r2) : r1 = r2 := by
  rw [← h1, ← h2]

/-- C9 witness at a concrete stream. -/
theorem c9_witness :
    (Except.ok exENoDefault : Except PErr SpecializedDispatchExpr) = .ok exENoDefault :=
  c9_parse_deterministic exTsNoDefault (.ok exENoDefault) (.ok exENoDefault) rfl rfl

end SpecDispatch
namespace SpecDispatch

/-- C8: with exactly one default arm, permuting the arms leaves the
generated trait declaration and dispatch call identical and permutes the
trait implementations correspondingly. -/
theorem c8_arm_order_irrelevant (e1 e2 : SpecializedDispatchExpr)
    (hperm : e1.arms.Perm e2.arms)
    (hfrom : e1.from_type = e2.from_type) (hto : e1.to_type = e2.to_type)
    (hin : e1.input_expr = e2.input_expr) (hex : e1.extra_args = e2.extra_args)
    (hone : (e1.arms.filter fun a => a.default).length = 1) :
    ∃ d c is1 is2,
      decodeOutput (sdeToTokens e1) = some (d, is1, c) ∧
      decodeOutput (sdeToTokens e2) = some (d, is2, c) ∧
      is1.Perm is2 := by
  obtain ⟨f1, t1, arms1, v1, x1⟩ := e1
  obtain ⟨f2, t2, arms2, v2, x2⟩ := e2
  simp only at hfrom hto hin hex hperm hone
  subst hfrom; subst hto; subst hin; subst hex
  obtain ⟨dA, hdA⟩ := List.length_eq_one.mp hone
  have hfil : (arms1.filter fun a => a.default).Perm (arms2.filter fun a => a.default) :=
    hperm.filter _
  have hfil2 : arms2.filter (fun a => a.default) = [dA] := by
    rw [hdA] at hfil
    exact List.perm_singleton.mp hfil.symm
  have hcoll : collectExtraArgs arms1 [] = collectExtraArgs arms2 [] := by
    rw [collectExtraArgs_lastDefault, collectExtraArgs_lastDefault,
        lastDefaultExtras, lastDefaultExtras, hdA, hfil2]
  have h1 := decodeOutput_sdeToTokens ⟨f1, t1, arms1, v1, x1⟩
  have h2 := decodeOutput_sdeToTokens ⟨f1, t1, arms2, v1, x1⟩
  simp only at h1 h2
  rw [← hcoll] at h2
  exact ⟨_, _, _, _, h1, h2, hperm.map _⟩

/-- C8 witness: swapping the default and concrete arms of a concrete
expression keeps the declaration and call and permutes the
implementations. -/
theorem c8_witness :
    exE1.arms.Perm exE2.arms ∧
    ∃ d c is1 is2,
      decodeOutput (sdeToTokens exE1) = some (d, is1, c) ∧
      decodeOutput (sdeToTokens exE2) = some (d, is2, c) ∧
      is1.Perm is2 :=
  ⟨List.Perm.swap exArm exDefArm [],
   c8_arm_order_irrelevant exE1 exE2 (List.Perm.swap exArm exDefArm []) rfl rfl rfl rfl rfl⟩

/-- C10: when no arm is marked default the generated trait method has zero
extra parameters regardless of concrete-arm extra parameters, and when more
than one arm is marked default the extra parameters of the last default arm
in source order are used. -/
theorem c10_default_extras_selection :
    (∀ e : SpecializedDispatchExpr, (∀ a ∈ e.arms, a.default = false) →
      ∃ is c, decodeOutput (sdeToTokens e) =
        some (⟨traitNameStr, "T", "dispatch", [], e.to_type⟩, is, c)) ∧
    (∀ (e : SpecializedDispatchExpr) (d : DispatchArmExpr),
      (e.arms.filter fun a => a.default).getLast? = some d →
      ∃ is c, decodeOutput (sdeToTokens e) =
        some (⟨traitNameStr, "T", "dispatch", d.extra_args, e.to_type⟩, is, c)) := by
  constructor
  · intro e h
    have hm := decodeOutput_sdeToTokens e
    rw [collectExtraArgs_lastDefault, lastDefaultExtras] at hm
    have hfil : e.arms.filter (fun a => a.default) = [] := by
      rw [List.filter_eq_nil_iff]
      intro a ha
      simp [h a ha]
    rw [hfil] at hm
    exact ⟨e.arms.map (implInfoOfArm e.to_type), callInfoOf e, by simpa using hm⟩
  · intro e d h
    have hm := decodeOutput_sdeToTokens e
    rw [collectExtraArgs_lastDefault, lastDefaultExtras, h] at hm
    exact ⟨e.arms.map (implInfoOfArm e.to_type), callInfoOf e, hm⟩

/-- C10 witness: a no-default expression yields zero extra parameters, and
an expression with two default arms uses the extras of the second one. -/
theorem c10_witness :
    (∀ a ∈ exENoDefault.arms, a.default = false) ∧
    (∃ is c, decodeOutput (sdeToTokens exENoDefault) =
      some (⟨traitNameStr, "T", "dispatch", [], exENoDefault.to_type⟩, is, c)) ∧
    (exETwoDefaults.arms.filter fun a => a.default).getLast? = some exDefArm2 ∧
    (∃ is c, decodeOutput (sdeToTokens exETwoDefaults) =
      some (⟨traitNameStr, "T", "dispatch", exDefArm2.extra_args, exETwoDefaults.to_type⟩, is, c)) :=
  ⟨by decide, c10_default_extras_selection.1 exENoDefault (by decide),
   rfl, c10_default_extras_selection.2 exETwoDefaults exDefArm2 rfl⟩

end SpecDispatch
